import Mathlib

/-!
Verification of the replication planner (`core/sling/replication.go`).

The Go source is shallowly embedded: each Go function is translated into an
executable Lean definition operating on explicit state values.  Go maps are
modelled as association lists with unique keys (`mapInsert` replaces an
existing binding in place, mirroring Go map assignment); Go `nil` pointers
become `Option.none`; a Go `nil`-pointer dereference (a runtime panic) is
surfaced as the distinguished error `CErr.nilDeref`.  String helpers are
implemented at the character-list level: `strings.ReplaceAll(s, c, "")` for a
single-character `c` is a character filter, `strings.Contains` is list-infix,
`strings.ToLower` is a per-character lowercase (ASCII, as exercised here).
-/

namespace Sling

/-- Character-level lowercase of a string (models `strings.ToLower`). -/
def toLowerStr (s : String) : String :=
  String.mk (s.toList.map Char.toLower)

/-- Models `strings.Contains` via list infix on characters. -/
def strContains (s sub : String) : Bool :=
  decide (sub.toList <:+: s.toList)

/-- Models `strings.HasPrefix` via list prefix on characters. -/
def strHasPrefix (s p : String) : Bool :=
  decide (p.toList <+: s.toList)

/-- Models `strings.TrimPrefix`: remove `p` from the front of `s` when present. -/
def strTrimPre (s p : String) : String :=
  if strHasPrefix s p then String.mk (s.toList.drop p.toList.length) else s

/-- Decimal integer parse with default 0 (models `cast.ToInt` on the decimal
strings used by `SLING_STREAM_CNT`; unparseable input casts to 0). -/
def toIntDef (s : String) : Int :=
  match s.toList with
  | [] => 0
  | '-' :: cs =>
    if cs ≠ [] ∧ cs.all Char.isDigit then
      - (cs.foldl (fun a c => a * 10 + (c.toNat - '0'.toNat)) 0 : Nat)
    else 0
  | cs =>
    if cs.all Char.isDigit then
      (cs.foldl (fun a c => a * 10 + (c.toNat - '0'.toNat)) 0 : Nat)
    else 0

/-- Glob matching over `*` (any run) and `?` (one char), fuelled so that the
recursion is structural (each step shrinks pattern + string by at least one,
so `|pattern| + |string| + 1` fuel is exact).  Modelled from the spec: the
stream-key grammar admits exactly these two wildcards; the external
`gobwas/glob` library compiles such patterns to this matcher. -/
def globMatchL : Nat → List Char → List Char → Bool
  | 0, _, _ => false
  | _ + 1, [], s => s.isEmpty
  | fuel + 1, '*' :: ps, [] => globMatchL fuel ps []
  | fuel + 1, '*' :: ps, c :: cs =>
    globMatchL fuel ps (c :: cs) || globMatchL fuel ('*' :: ps) cs
  | _ + 1, '?' :: _, [] => false
  | fuel + 1, '?' :: ps, _ :: cs => globMatchL fuel ps cs
  | _ + 1, _ :: _, [] => false
  | fuel + 1, p :: ps, c :: cs => p == c && globMatchL fuel ps cs

/-- Glob matching on strings. -/
def globMatch (pat s : String) : Bool :=
  globMatchL (pat.toList.length + s.toList.length + 1) pat.toList s.toList

/-! ## Association-list maps (Go `map` semantics: unique keys) -/

/-- Lookup in an association list (Go map read). -/
def alookup {α : Type} (m : List (String × α)) (k : String) : Option α :=
  (m.find? (fun p => p.1 == k)).map (·.2)

/-- Go map assignment: replace the binding in place when the key exists,
otherwise append a new binding. -/
def mapInsert {α : Type} (m : List (String × α)) (k : String) (v : α) :
    List (String × α) :=
  if (m.find? (fun p => p.1 == k)).isSome then
    m.map (fun p => if p.1 == k then (k, v) else p)
  else m ++ [(k, v)]

/-- Go `delete(m, k)`. -/
def mapErase {α : Type} (m : List (String × α)) (k : String) :
    List (String × α) :=
  m.filter (fun p => p.1 ≠ k)

/-- The keys of an association list (`lo.Keys`; Go iteration order is
unspecified, the model fixes list order). -/
def akeys {α : Type} (m : List (String × α)) : List String :=
  m.map (·.1)

/-! ## Data model (`ReplicationStreamConfig`, `Config`, `ReplicationConfig`) -/

/-- The polymorphic `primary_key` value: YAML scalar or sequence
(Go field `PrimaryKeyI any`). -/
inductive PKVal where
  | str (s : String)
  | arr (l : List String)
  deriving DecidableEq, Repr

/-- Models `castKeyArray` (scalar becomes a one-element list, nil is empty). -/
def castKeyArray : Option PKVal → List String
  | none => []
  | some (.str s) => [s]
  | some (.arr l) => l

/-- Hook descriptors for both replication level (`start`/`end`) and stream
level (`pre`/`post`); descriptors are kept opaque as strings. -/
structure HookMap where
  Start : List String := []
  End : List String := []
  Pre : List String := []
  Post : List String := []
  deriving DecidableEq, Repr

/-- The fields of `SourceOptions` read by the planner (`Limit`, `Offset`,
`Range`, `FileSelect`); pointer-typed fields are `Option`. -/
structure SrcOpts where
  limit : Option Int := none
  offset : Option Int := none
  range : Option String := none
  fileSelect : Option (List String) := none
  deriving DecidableEq, Repr

/-- The fields of `TargetOptions` read by the planner. -/
structure TgtOpts where
  fileMaxBytes : Option Int := none
  fileMaxRows : Option Int := none
  deriving DecidableEq, Repr

/-- `ReplicationStreamConfig`: per-stream configuration.  The `replication`
back-pointer (json:"-") is omitted — it is only consulted by hook parsing,
which is outside the verified claims. -/
structure ReplicationStreamConfig where
  ID : String := ""
  Description : String := ""
  Mode : String := ""
  Object : String := ""
  Select : List String := []
  Where : String := ""
  PrimaryKeyI : Option PKVal := none
  UpdateKey : String := ""
  SQL : String := ""
  Tags : List String := []
  SourceOptions : Option SrcOpts := none
  TargetOptions : Option TgtOpts := none
  Schedule : String := ""
  Disabled : Bool := false
  Single : Option Bool := none
  Transforms : Option String := none
  Columns : Option (List (String × String)) := none
  Hooks : HookMap := {}
  deriving DecidableEq, Repr

abbrev RSC := ReplicationStreamConfig

/-- A compiled task (`Config` in Go), flattened over its `Source` and
`Target` sub-structs. -/
structure Config where
  sourceConn : String := ""
  sourceStream : String := ""
  query : String := ""
  select : List String := []
  whereClause : String := ""
  primaryKey : List String := []
  updateKey : String := ""
  sourceOptions : Option SrcOpts := none
  targetConn : String := ""
  object : String := ""
  columns : Option (List (String × String)) := none
  targetOptions : Option TgtOpts := none
  mode : String := ""
  transforms : Option String := none
  env : List (String × String) := []
  streamName : String := ""
  incrementalValStr : String := ""
  replicationStream : RSC := {}
  deriving DecidableEq, Repr

/-- Go `map[string]*ReplicationStreamConfig`: value `none` is a nil stream
config (a YAML null). -/
abbrev StreamMap := List (String × Option RSC)

/-- `ReplicationConfig`.  `mapsStreams` embeds `maps.Streams`, the raw
presence maps: for each stream key, the list of field keys that appeared
literally in the YAML. -/
structure ReplicationConfig where
  Source : String := ""
  Target : String := ""
  Hooks : HookMap := {}
  Defaults : RSC := {}
  Streams : StreamMap := []
  Env : List (String × String) := []
  Tasks : List Config := []
  Compiled : Bool := false
  streamsOrdered : List String := []
  mapsStreams : List (String × List String) := []
  deriving DecidableEq, Repr

abbrev RC := ReplicationConfig

/-- `rd.Streams[name]` as the Go planner consumes it: an absent key and a nil
value both yield a nil stream config. -/
def joinLookup (m : StreamMap) (k : String) : Option RSC :=
  match alookup m k with
  | some (some c) => some c
  | _ => none

/-- `Normalize`: strip backticks and double quotes, lowercase
(single-character `ReplaceAll` is a character filter). -/
def Normalize (n : String) : String :=
  String.mk (((n.toList.filter (fun c => c ≠ '`')).filter
    (fun c => c ≠ '"')).map Char.toLower)

/-- `ObjectHasStreamVars`: does `Object` mention a stream-variable
placeholder? -/
def ObjectHasStreamVars (s : RSC) : Bool :=
  ["{stream_table}", "{stream_name}", "{stream_file_path}",
   "{stream_file_name}"].any (fun v => strContains s.Object v)

/-- A stream key is a wildcard when it contains `*` or `?`. -/
def hasWildcardName (name : String) : Bool :=
  strContains name "*" || strContains name "?"

/-- `GetStream`: does some existing stream key normalise equal to `name`?
(Only the `found` flag is consumed by `ProcessWildcards`.) -/
def getStreamFound (m : StreamMap) (name : String) : Bool :=
  m.any (fun p => Normalize p.1 == Normalize name)

/-- The presence keys of the JSON serialisation of a cloned stream config, as
produced by `AddStream`s `g.UnmarshalMap(g.Marshal(cfg))`: `omitempty` drops
zero-valued fields; the struct-typed `hooks` field is always emitted; a nil
config marshals to `null`, an empty map. -/
def presenceOf : Option RSC → List String
  | none => []
  | some c =>
    (if c.ID ≠ "" then ["id"] else []) ++
    (if c.Description ≠ "" then ["description"] else []) ++
    (if c.Mode ≠ "" then ["mode"] else []) ++
    (if c.Object ≠ "" then ["object"] else []) ++
    (if c.Select ≠ [] then ["select"] else []) ++
    (if c.Where ≠ "" then ["where"] else []) ++
    (if c.PrimaryKeyI.isSome then ["primary_key"] else []) ++
    (if c.UpdateKey ≠ "" then ["update_key"] else []) ++
    (if c.SQL ≠ "" then ["sql"] else []) ++
    (if c.Tags ≠ [] then ["tags"] else []) ++
    (if c.SourceOptions.isSome then ["source_options"] else []) ++
    (if c.TargetOptions.isSome then ["target_options"] else []) ++
    (if c.Schedule ≠ "" then ["schedule"] else []) ++
    (if c.Disabled then ["disabled"] else []) ++
    (if c.Single.isSome then ["single"] else []) ++
    (if c.Transforms.isSome then ["transforms"] else []) ++
    (if c.Columns.isSome then ["columns"] else []) ++
    ["hooks"]

/-- `AddStream`: deep-copy the config (JSON round-trip; a nil pointer copies
to the zero struct), bind it under `key`, append `key` to the order list, and
record a presence map for the key when absent. -/
def AddStream (rc : RC) (key : String) (cfg : Option RSC) : RC :=
  { rc with
    Streams := mapInsert rc.Streams key (some (cfg.getD {})),
    streamsOrdered := rc.streamsOrdered ++ [key],
    mapsStreams :=
      if (alookup rc.mapsStreams key).isSome then rc.mapsStreams
      else rc.mapsStreams ++ [(key, presenceOf cfg)] }

/-- `DeleteStream`: drop the key from the map and filter it out of the order
list (`lo.Filter` keeps the remaining relative order). -/
def DeleteStream (rc : RC) (key : String) : RC :=
  { rc with
    Streams := mapErase rc.Streams key,
    streamsOrdered := rc.streamsOrdered.filter (fun v => v ≠ key) }

/-- One-level nil-based fill of a source-option bag.  Modelled from the spec:
`SourceOptions.SetDefaults` lives outside this repository slice; the spec says
option bags are deep-merged, each unset field inheriting the default. -/
def srcOptsSetDefaults (o d : SrcOpts) : SrcOpts :=
  { limit := if o.limit.isSome then o.limit else d.limit
    offset := if o.offset.isSome then o.offset else d.offset
    range := if o.range.isSome then o.range else d.range
    fileSelect := if o.fileSelect.isSome then o.fileSelect else d.fileSelect }

/-- One-level nil-based fill of a target-option bag.  Modelled from the spec,
as for `srcOptsSetDefaults`. -/
def tgtOptsSetDefaults (o d : TgtOpts) : TgtOpts :=
  { fileMaxBytes := if o.fileMaxBytes.isSome then o.fileMaxBytes else d.fileMaxBytes
    fileMaxRows := if o.fileMaxRows.isSome then o.fileMaxRows else d.fileMaxRows }

/-- `SetStreamDefaults`: for each of the fourteen recognised fields, copy the
defaults value exactly when the field key is absent from the stream's raw
presence map.  (The Go original iterates a map of per-field setters; the
fields are independent, so the per-field form below is equivalent.)  Note the
`single` setter materialises the default pointer: `g.Ptr(g.PtrVal(d.Single))`
turns a nil default into an explicit `false`.  Option bags: a nil stream bag
is replaced by a copy of the defaults bag (`g.Ptr(g.PtrVal(...))`, nil
defaults giving the zero bag); a present bag is merged via `SetDefaults`. -/
def SetStreamDefaults (name : String) (stream : RSC) (rc : RC) : RSC :=
  let m := (alookup rc.mapsStreams name).getD []
  { ID := stream.ID
    Description := stream.Description
    Mode := if m.contains "mode" then stream.Mode else rc.Defaults.Mode
    Object := if m.contains "object" then stream.Object else rc.Defaults.Object
    Select := if m.contains "select" then stream.Select else rc.Defaults.Select
    Where := if m.contains "where" then stream.Where else rc.Defaults.Where
    PrimaryKeyI := if m.contains "primary_key" then stream.PrimaryKeyI else rc.Defaults.PrimaryKeyI
    UpdateKey := if m.contains "update_key" then stream.UpdateKey else rc.Defaults.UpdateKey
    SQL := if m.contains "sql" then stream.SQL else rc.Defaults.SQL
    Tags := if m.contains "tags" then stream.Tags else rc.Defaults.Tags
    SourceOptions := some
      (match stream.SourceOptions with
        | none => rc.Defaults.SourceOptions.getD {}
        | some so =>
          match rc.Defaults.SourceOptions with
          | none => so
          | some dso => srcOptsSetDefaults so dso)
    TargetOptions := some
      (match stream.TargetOptions with
        | none => rc.Defaults.TargetOptions.getD {}
        | some to_ =>
          match rc.Defaults.TargetOptions with
          | none => to_
          | some dto => tgtOptsSetDefaults to_ dto)
    Schedule := if m.contains "schedule" then stream.Schedule else rc.Defaults.Schedule
    Disabled := if m.contains "disabled" then stream.Disabled else rc.Defaults.Disabled
    Single := if m.contains "single" then stream.Single else some (rc.Defaults.Single.getD false)
    Transforms := if m.contains "transforms" then stream.Transforms else rc.Defaults.Transforms
    Columns := if m.contains "columns" then stream.Columns else rc.Defaults.Columns
    Hooks := if m.contains "hooks" then stream.Hooks else rc.Defaults.Hooks }

/-- `MatchStreams`: collect the streams selected by one token, by normalised
key equality, exact `ID` equality, or case-insensitive glob.  Result `none`
models the Go runtime panic: for a nil stream config that fails the equality
branch, `streamCfg.ID` dereferences a nil pointer.  (The modelled glob always
compiles, so the `err == nil` guard on the glob branch is always true.) -/
def msStep (pattern : String) (acc : Option (List (String × Option RSC)))
    (p : String × Option RSC) : Option (List (String × Option RSC)) :=
  match acc with
  | none => none
  | some res =>
    if Normalize p.1 == Normalize pattern then some (res ++ [p])
    else
      match p.2 with
      | none => none
      | some c =>
        if c.ID == pattern then some (res ++ [p])
        else if globMatch (toLowerStr pattern) (toLowerStr (Normalize p.1)) then
          some (res ++ [p])
        else some res

/-- The iteration body of `MatchStreams` is `msStep`; see there. -/
def MatchStreams (rc : RC) (pattern : String) : Option (List (String × Option RSC)) :=
  rc.Streams.foldl (msStep pattern) (some [])

/-! ## Wildcard processing -/

/-- Planner error kinds (§7 of the spec); `nilDeref` marks a Go runtime panic
rather than a returned error. -/
inductive CErr where
  | invalidWildcard
  | discoveryError (pattern : String)
  | missingTarget (stream : String)
  | conflictingTags
  | assertionError (names : List String)
  | nilDeref
  deriving DecidableEq, Repr

/-- Result of discovery for one pattern: `skip` models a DB pattern whose
parsed schema component is empty (no wildcard is built), `err` a discovery
failure (error or `ok=false`), `ok names` the discovered fully-qualified
names in discovery order. -/
inductive DiscResult where
  | skip
  | err
  | ok (names : List String)
  deriving DecidableEq, Repr

/-- First loop of `ProcessWildcards`: walk the ordered stream names, skipping
explicit singles, rejecting a bare `*`, auto-marking as single any wildcard
whose defaulted object has no stream variables (note the Go code reads
`stream.TargetOptions` through the possibly-nil raw pointer there — a panic
for a null stream config), and collecting the surviving wildcard patterns. -/
def pwPhase1 (rc : RC) :
    List String → StreamMap → List String → Except CErr (StreamMap × List String)
  | [], M, pats => .ok (M, pats)
  | name :: rest, M, pats =>
    let streamOpt := joinLookup M name
    let cont : Bool :=
      match streamOpt with
      | some st =>
        match st.Single with
        | some b => b
        | none => rc.Defaults.Single == some true
      | none => rc.Defaults.Single == some true
    if cont then pwPhase1 rc rest M pats
    else if name == "*" then .error .invalidWildcard
    else if hasWildcardName name then
      let s := SetStreamDefaults name (streamOpt.getD {}) rc
      if ObjectHasStreamVars s then pwPhase1 rc rest M (pats ++ [name])
      else
        match streamOpt with
        | none => .error .nilDeref
        | some st =>
          let tOpts := st.TargetOptions.getD {}
          let value := (tOpts.fileMaxBytes.getD 0 == 0) && (tOpts.fileMaxRows.getD 0 == 0)
          pwPhase1 rc rest (mapInsert M name (some { st with Single := some value })) pats
    else pwPhase1 rc rest M pats

/-- Build one `Wildcard` record per surviving pattern from the Discoverer's
answers, preserving pattern order. -/
def buildWildcards (disc : String → DiscResult) :
    List String → Except CErr (List (String × List String))
  | [] => .ok []
  | p :: rest =>
    match disc p with
    | .skip => buildWildcards disc rest
    | .err => .error (.discoveryError p)
    | .ok names => (buildWildcards disc rest).map (fun ws => (p, names) :: ws)

/-- Splice one wildcard's discovered names: a name whose normalisation
already exists as a stream key is left untouched (user override wins);
otherwise the pattern's config is cloned in under the new name, which is
appended to the new order. -/
def mergeNames (pattern : String) : List String → RC → List String → RC × List String
  | [], rc, acc => (rc, acc)
  | wsn :: rest, rc, acc =>
    if getStreamFound rc.Streams wsn then mergeNames pattern rest rc acc
    else
      let cfg := joinLookup rc.Streams pattern
      mergeNames pattern rest (AddStream rc wsn cfg) (acc ++ [wsn])

/-- Inner wildcard scan for one original name: each wildcard whose pattern
equals the name is expanded in place and the pattern key deleted. -/
def mergeWilds (origName : String) :
    List (String × List String) → RC → List String → Bool → RC × List String × Bool
  | [], rc, acc, matched => (rc, acc, matched)
  | w :: ws, rc, acc, matched =>
    if w.1 == origName then
      let (rc1, acc1) := mergeNames w.1 w.2 rc acc
      mergeWilds origName ws (DeleteStream rc1 w.1) acc1 true
    else mergeWilds origName ws rc acc matched

/-- The ordering merge of `ProcessWildcards`: walk the original order; splice
matched wildcards at their position, pass unmatched names through. -/
def mergeLoop (wilds : List (String × List String)) :
    List String → RC → List String → RC × List String
  | [], rc, acc => (rc, acc)
  | origName :: rest, rc, acc =>
    let r := mergeWilds origName wilds rc acc false
    mergeLoop wilds rest r.1 (if r.2.2 then r.2.1 else r.2.1 ++ [origName])

/-- `ProcessWildcards`.  Connection resolution (`GetLocalConns`,
`NewConnectionFromURL`) is external; the model assumes a database-kind source
connection — the file branch is symmetric, with node paths in place of table
full names.  The dead `originalNormalizedStreamNames` map of the Go source is
omitted. -/
def ProcessWildcards (rc : RC) (disc : String → DiscResult) : Except CErr RC :=
  match pwPhase1 rc rc.streamsOrdered rc.Streams [] with
  | .error e => .error e
  | .ok (M1, pats) =>
    if pats.isEmpty then .ok { rc with Streams := M1 }
    else
      match buildWildcards disc pats with
      | .error e => .error e
      | .ok wilds =>
        let rc1 := { rc with Streams := M1 }
        let r := mergeLoop wilds rc.streamsOrdered rc1 []
        .ok { r.1 with streamsOrdered := r.2 }

/-! ## Compilation -/

/-- The fields of the optional `cfgOverwrite` parameter (a caller-supplied
partial `Config` of CLI overrides) that `Compile` reads. -/
structure COV where
  mode : String := ""
  limit : Option Int := none
  offset : Option Int := none
  updateKey : String := ""
  primaryKeyI : Option PKVal := none
  range : Option String := none
  fileSelect : Option (List String) := none
  incrementalValStr : String := ""
  env : List (String × String) := []
  deriving DecidableEq, Repr

/-- The config-overwrite block of the compile loop.  Pointer-valued overrides
(`Limit`, `Offset`, `PrimaryKeyI`, `Range`, `FileSelect`) are applied when
the overwrite pointer is non-nil — the Go pointer-inequality guard only
suppresses a value-identical reassignment.  `IncrementalValStr` is copied
unconditionally; overwrite env keys replace replication env keys. -/
def applyOverwrite (ov : Option COV) (stream : RSC) (baseEnv : List (String × String)) :
    RSC × List (String × String) × String :=
  match ov with
  | none => (stream, baseEnv, "")
  | some o =>
    let stream := if o.mode ≠ "" ∧ stream.Mode ≠ o.mode then { stream with Mode := o.mode } else stream
    let so := stream.SourceOptions.getD {}
    let so := if o.limit.isSome then { so with limit := o.limit } else so
    let so := if o.offset.isSome then { so with offset := o.offset } else so
    let so := if o.range.isSome then { so with range := o.range } else so
    let so := if o.fileSelect.isSome then { so with fileSelect := o.fileSelect } else so
    let stream := { stream with SourceOptions := some so }
    let stream :=
      if o.updateKey ≠ "" ∧ stream.UpdateKey ≠ o.updateKey then
        { stream with UpdateKey := o.updateKey }
      else stream
    let stream := if o.primaryKeyI.isSome then { stream with PrimaryKeyI := o.primaryKeyI } else stream
    let env := o.env.foldl (fun e kv => mapInsert e kv.1 kv.2) baseEnv
    (stream, env, o.incrementalValStr)

/-- Assemble the task `Config` for one surviving stream; option bags are
value copies (the JSON round-trip clone), and a true `single` flag forces the
file limits to zero. -/
def buildConfig (rc : RC) (name : String) (stream : RSC)
    (taskEnv : List (String × String)) (incStr : String) : Config :=
  let cfg : Config :=
    { sourceConn := rc.Source
      sourceStream := name
      query := stream.SQL
      select := stream.Select
      whereClause := stream.Where
      primaryKey := castKeyArray stream.PrimaryKeyI
      updateKey := stream.UpdateKey
      sourceOptions := stream.SourceOptions
      targetConn := rc.Target
      object := stream.Object
      columns := stream.Columns
      targetOptions := stream.TargetOptions
      mode := stream.Mode
      transforms := stream.Transforms
      env := taskEnv
      streamName := name
      incrementalValStr := incStr
      replicationStream := stream }
  if stream.Single == some true then
    let topts := cfg.targetOptions.getD {}
    { cfg with targetOptions := some { topts with fileMaxBytes := some 0, fileMaxRows := some 0 } }
  else cfg

/-- `testStreamCnt`: the `SLING_STREAM_CNT` assertion.  The empty string is
the unset environment variable; `>N` requires the count to be strictly
greater than `N`; any other value requires exact equality.  The error carries
the matched then candidate stream names, as in the Go message. -/
def testStreamCnt (streamCnt : Nat) (matchedStreams inputStreams : List String)
    (envVal : String) : Except CErr Unit :=
  if envVal == "" then .ok ()
  else if strHasPrefix envVal ">" then
    if (streamCnt : Int) ≤ toIntDef (strTrimPre envVal ">") then
      .error (.assertionError (matchedStreams ++ inputStreams))
    else .ok ()
  else if (streamCnt : Int) ≠ toIntDef envVal then
    .error (.assertionError (matchedStreams ++ inputStreams))
  else .ok ()

/-- Matched-stream accumulator: keys are normalised stream names (Go
`matchedStreams` map; only key membership and the final key list are read). -/
abbrev MS := List (String × Option RSC)

/-- One selection token folded into the matched map (`none` propagates the
nil-pointer panic); matched keys are normalised. -/
def bmStep (rc : RC) (acc : Option MS) (tok : String) : Option MS :=
  match acc with
  | none => none
  | some ms =>
    match MatchStreams rc tok with
    | none => none
    | some found => some (found.foldl (fun m kv => mapInsert m (Normalize kv.1) kv.2) ms)

/-- Fold every selection token through `MatchStreams` via `bmStep`. -/
def buildMatched (rc : RC) (selectStreams : List String) : Option MS :=
  selectStreams.foldl (bmStep rc) (some [])

/-- The per-stream loop of `Compile`: default the stream, reject an empty
object (note: before the selection check), apply tag include/exclude to the
matched set, skip unselected streams when a selection is present, then apply
overwrites and emit the task.  `cfg.Prepare()` is the external TaskPreparer,
modelled from the spec as the identity that succeeds. -/
def compileLoop (rc : RC) (ov : Option COV) (selCount : Nat)
    (includeTags excludeTags : List String) :
    List String → MS → List Config → Except CErr (MS × List Config)
  | [], ms, tasks => .ok (ms, tasks)
  | name :: rest, ms, tasks =>
    let stream0 := (joinLookup rc.Streams name).getD {}
    let stream := SetStreamDefaults name stream0 rc
    if stream.Object == "" then .error (.missingTarget name)
    else
      let matchedTag := includeTags.any (fun t => stream.Tags.contains t)
      let ms := if matchedTag then mapInsert ms (Normalize name) (some stream) else ms
      let ms :=
        if excludeTags.any (fun t => stream.Tags.contains t) then mapErase ms (Normalize name)
        else ms
      if selCount > 0 ∧ (alookup ms (Normalize name)).isNone then
        compileLoop rc ov selCount includeTags excludeTags rest ms tasks
      else
        let r := applyOverwrite ov stream rc.Env
        let cfg := buildConfig rc name r.1 r.2.1 r.2.2
        compileLoop rc ov selCount includeTags excludeTags rest ms (tasks ++ [cfg])

/-- The defaulted object of stream `m` in `rc`, as the compile loop computes
it (an absent or nil stream config defaults the zero config). -/
def defObj (rc : RC) (m : String) : String :=
  (SetStreamDefaults m ((joinLookup rc.Streams m).getD {}) rc).Object

/-- The expansion of one original stream name through the wildcard records:
a name equal to some wildcard's pattern is replaced by that wildcard's
discovered names, any other name passes through unchanged. -/
def expandW (wilds : List (String × List String)) (n : String) : List String :=
  match wilds.find? (fun w => w.1 == n) with
  | some w => w.2
  | none => [n]

/-- The streams section of `UnmarshalReplication` at the YAML `MapSlice`
level: the typed `Streams` map is the last-wins fold of the entries (Go map
semantics under `yaml.Unmarshal`), while `streamsOrdered` records every key
in document order (lines 948–986). -/
def parseStreams (entries : List (String × Option RSC)) : RC :=
  { Streams := entries.foldl (fun m p => mapInsert m p.1 p.2) []
    streamsOrdered := entries.map (fun p => p.1) }

/-- Map/order consistency: the ordered list has no duplicates and is a
permutation of the map's keys (so it lists each key exactly once). -/
def Consistent (rc : RC) : Prop :=
  rc.streamsOrdered.Nodup ∧ List.Perm (akeys rc.Streams) rc.streamsOrdered

/-- `Compile`.  An already-compiled config short-circuits: a non-empty
selection filters the existing tasks by literal stream-name membership and
nothing else runs (in particular no wildcard discovery).  Otherwise: process
wildcards, resolve the selection vector (name matches plus tag
include/exclude, which must not both be present), run the per-stream loop,
mark compiled, and apply the `SLING_STREAM_CNT` assertion to the matched
count (or the stream count when no selection was given).  Runtime-state
generation is modelled separately by `refreshState`. -/
def Compile (rc : RC) (cfgOverwrite : Option COV) (selectStreams : List String)
    (disc : String → DiscResult) (streamCntEnv : String) : Except CErr RC :=
  if rc.Compiled then
    if selectStreams.length > 0 then
      .ok { rc with Tasks := rc.Tasks.filter (fun t => selectStreams.contains t.streamName) }
    else .ok rc
  else
    match ProcessWildcards rc disc with
    | .error e => .error e
    | .ok rc1 =>
      match buildMatched rc1 selectStreams with
      | none => .error .nilDeref
      | some ms0 =>
        let includeTags := selectStreams.filterMap
          (fun t => if strHasPrefix t "tag:" then some (strTrimPre t "tag:") else none)
        let excludeTags := selectStreams.filterMap
          (fun t => if strHasPrefix t "-tag:" then some (strTrimPre t "-tag:") else none)
        if includeTags ≠ [] ∧ excludeTags ≠ [] then .error .conflictingTags
        else
          match compileLoop rc1 cfgOverwrite selectStreams.length includeTags excludeTags
              rc1.streamsOrdered ms0 rc1.Tasks with
          | .error e => .error e
          | .ok (ms, tasks) =>
            let rc2 := { rc1 with Tasks := tasks, Compiled := true }
            let streamCnt := if selectStreams.length > 0 then ms.length else rc2.Streams.length
            match testStreamCnt streamCnt (akeys ms) (akeys rc2.Streams) streamCntEnv with
            | .error e => .error e
            | .ok _ => .ok rc2

/-! ## Runtime state (`RuntimeState` method, lines 76–146) -/

/-- Source/target summary (`ConnState`); `Type` is renamed `ConnType`. -/
structure ConnState where
  Name : String := ""
  ConnType : String := ""
  Kind : String := ""
  Bucket : String := ""
  Container : String := ""
  Database : String := ""
  Instance : String := ""
  Schema : String := ""
  deriving DecidableEq, Repr

/-- Per-run stream substate. -/
structure StreamState where
  FileFolder : String := ""
  FileName : String := ""
  FileExt : String := ""
  FilePath : String := ""
  Name : String := ""
  Schema : String := ""
  Table : String := ""
  FullName : String := ""
  deriving DecidableEq, Repr

/-- Per-run object substate. -/
structure ObjectState where
  Name : String := ""
  Schema : String := ""
  Table : String := ""
  FullName : String := ""
  deriving DecidableEq, Repr

/-- One run entry; `Status` is the execution status string
(`created` on creation). -/
structure RunState where
  ID : String := ""
  Status : String := ""
  Stream : StreamState := {}
  Object : ObjectState := {}
  deriving DecidableEq, Repr

/-- The live runtime state; the timestamp is an abstract tick. -/
structure RuntimeState where
  Timestamp : Nat := 0
  Source : ConnState := {}
  Target : ConnState := {}
  Runs : List (String × RunState) := []
  Env : List (String × String) := []
  deriving DecidableEq, Repr

/-- What one compiled task contributes to the runtime state: the connection
data and the entries of `task.GetFormatMap()` (external) that the method
reads, flattened to named fields. -/
structure TaskStateInfo where
  srcType : String := ""
  srcKind : String := ""
  srcDatabase : String := ""
  srcInstance : String := ""
  srcSchema : String := ""
  tgtType : String := ""
  tgtKind : String := ""
  tgtDatabase : String := ""
  tgtInstance : String := ""
  tgtSchema : String := ""
  sourceBucket : String := ""
  sourceContainer : String := ""
  targetBucket : String := ""
  targetContainer : String := ""
  streamRunId : String := ""
  streamFileFolder : String := ""
  streamFileName : String := ""
  streamFileExt : String := ""
  streamFilePath : String := ""
  streamNameVar : String := ""
  streamSchema : String := ""
  streamTable : String := ""
  streamFullName : String := ""
  objectName : String := ""
  objectSchema : String := ""
  objectTable : String := ""
  objectFullName : String := ""
  streamName : String := ""
  deriving DecidableEq, Repr

/-- Underscore-run collapsing (`prev` records whether the previous emitted
character was an underscore). -/
def collapseU : Bool → List Char → List Char
  | _, [] => []
  | prev, c :: rest =>
    if c = '_' then
      if prev then collapseU true rest else '_' :: collapseU true rest
    else c :: collapseU false rest

/-- Modelled from the spec: `iop.CleanName` is outside this repository slice;
the spec defines run-id sanitisation as lowercase with runs of
non-alphanumerics collapsed to a single underscore. -/
def cleanName (s : String) : String :=
  String.mk (collapseU false
    (s.toList.map (fun c => if c.isAlphanum then c.toLower else '_')))

/-- Fold one task into the runtime state: source/target summary fields are
assigned unconditionally; the run entry is created only when its id is not
yet present. -/
def refreshTask (st : RuntimeState) (t : TaskStateInfo) : RuntimeState :=
  let st :=
    { st with
      Source :=
        { st.Source with
          ConnType := t.srcType, Kind := t.srcKind, Bucket := t.sourceBucket
          Container := t.sourceContainer, Database := t.srcDatabase
          Instance := t.srcInstance, Schema := t.srcSchema }
      Target :=
        { st.Target with
          ConnType := t.tgtType, Kind := t.tgtKind, Bucket := t.targetBucket
          Container := t.targetContainer, Database := t.tgtDatabase
          Instance := t.tgtInstance, Schema := t.tgtSchema } }
  let runID := if t.streamRunId ≠ "" then t.streamRunId else cleanName (Normalize t.streamName)
  if (alookup st.Runs runID).isSome then st
  else
    { st with
      Runs := st.Runs ++
        [(runID,
          { ID := runID, Status := "created"
            Stream :=
              { FileFolder := t.streamFileFolder, FileName := t.streamFileName
                FileExt := t.streamFileExt, FilePath := t.streamFilePath
                Name := t.streamNameVar, Schema := t.streamSchema
                Table := t.streamTable, FullName := t.streamFullName }
            Object :=
              { Name := t.objectName, Schema := t.objectSchema
                Table := t.objectTable, FullName := t.objectFullName } })] }

/-- The `RuntimeState` method (`refresh()`): initialise the state if absent,
update the timestamp, and when compiled fold every task through
`refreshTask`. -/
def refreshState (stOpt : Option RuntimeState) (sourceName targetName : String)
    (env : List (String × String)) (compiled : Bool) (tasks : List TaskStateInfo)
    (now : Nat) : RuntimeState :=
  let st :=
    match stOpt with
    | some s => s
    | none => { Env := env, Source := { Name := sourceName }, Target := { Name := targetName } }
  let st := { st with Timestamp := now }
  if compiled then tasks.foldl refreshTask st else st

/-! ## Concrete configurations used in counterexamples and witnesses -/

namespace Fx

/-- A discoverer that is never consulted successfully. -/
def noDisc : String → DiscResult := fun _ => .err

/-- Two plain streams with explicit objects. -/
def rcAB : RC :=
  { Source := "pg", Target := "snow"
    Streams := [("a", some { Object := "o1" }), ("b", some { Object := "o2" })]
    streamsOrdered := ["a", "b"]
    mapsStreams := [("a", ["object"]), ("b", ["object"])] }

/-- A null (YAML `null`) stream value. -/
def rcNull : RC :=
  { Source := "pg", Target := "snow"
    Streams := [("a", none)], streamsOrdered := ["a"], mapsStreams := []
    Defaults := { Object := "obj" } }

/-- A null wildcard stream whose defaulted object has no stream variables. -/
def rcNullW : RC :=
  { Source := "pg", Target := "snow"
    Streams := [("sch.*", none)], streamsOrdered := ["sch.*"], mapsStreams := []
    Defaults := { Object := "tbl" } }

/-- Stream `b` has an empty object and no default to fill it. -/
def rcC6 : RC :=
  { Source := "pg", Target := "snow"
    Streams := [("a", some { Object := "o1" }), ("b", some {})]
    streamsOrdered := ["a", "b"]
    mapsStreams := [("a", ["object"]), ("b", [])] }

/-- A single stream named `ab`, for glob selection. -/
def rcG : RC :=
  { Source := "pg", Target := "snow"
    Streams := [("ab", some { Object := "o" })]
    streamsOrdered := ["ab"], mapsStreams := [("ab", ["object"])] }

/-- Defaults leave `single` unset and the presence map records no keys. -/
def rcD3 : RC :=
  { Defaults := { Object := "x" }, mapsStreams := [("s", [])] }

/-- Presence map with `mode` recorded; defaults carry a non-empty mode. -/
def rcD3b : RC :=
  { Defaults := { Mode := "full-refresh", Object := "x" }
    mapsStreams := [("s", ["mode", "object"])] }

/-- An already-compiled config with one task, for the re-compile branch. -/
def rcDone : RC :=
  { Source := "pg", Target := "snow", Compiled := true
    Tasks := [{ streamName := "a", object := "o1" }] }

/-- Wildcard between two plain streams; the pattern's defaulted object keeps
a stream variable, so it expands. -/
def rcW : RC :=
  { Source := "pg", Target := "snow"
    Streams := [("x", some { Object := "ox" }), ("public.*", none), ("y", some { Object := "oy" })]
    streamsOrdered := ["x", "public.*", "y"]
    mapsStreams := [("x", ["object"]), ("y", ["object"])]
    Defaults := { Object := "{stream_table}" } }

/-- Discoverer answering the `public.*` pattern with two tables. -/
def discW : String → DiscResult :=
  fun p => if p = "public.*" then .ok ["public.a", "public.b"] else .err

/-- A wildcard stream whose object is a plain table name (no stream vars). -/
def rcS : RC :=
  { Source := "s3x", Target := "snow"
    Streams := [("s3b/*.csv", some { Object := "tbl" })]
    streamsOrdered := ["s3b/*.csv"]
    mapsStreams := [("s3b/*.csv", ["object"])] }

/-- Runtime state carrying a custom source schema and one run entry. -/
def st9 : RuntimeState :=
  { Source := { Schema := "custom" }, Runs := [("r1", { ID := "zzz" })] }

/-- Task info whose source schema differs from the state's. -/
def t9 : TaskStateInfo := { srcSchema := "s1", streamName := "MyStream", streamRunId := "r1" }

/-- One existing stream, for the duplicate `AddStream`. -/
def rc10 : RC := { Streams := [("a", some {})], streamsOrdered := ["a"] }

/-- The compiled form of `rcS` (selection-free compile). -/
def rcS3 : RC :=
  match Compile rcS none [] noDisc "" with
  | .ok r => r
  | .error _ => {}

/-- The compiled form of `rcW` (selection-free compile against `discW`). -/
def rcWF : RC :=
  match Compile rcW none [] discW "" with
  | .ok r => r
  | .error _ => {}

end Fx

/-! ## Claim theorems: counterexamples and direct evaluations -/

/-- C1 (counterexample): compiling with selection `["a"]` and then re-invoking
`Compile` with `["b"]` yields no tasks, while compiling a fresh copy with
`["b"]` alone yields the task for `b` — re-compilation is not equivalent to a
fresh compile with the second selection. -/
theorem C1_counterexample :
    (Compile Fx.rcAB none ["a"] Fx.noDisc "").bind
        (fun rc1 => (Compile rc1 none ["b"] Fx.noDisc "").map (fun r => r.Tasks.map (·.streamName)))
      = .ok []
    ∧ (Compile Fx.rcAB none ["b"] Fx.noDisc "").map (fun r => r.Tasks.map (·.streamName))
      = .ok ["b"] :=
  ⟨rfl, rfl⟩

/-- C5 (code bug): a null stream config makes `MatchStreams` dereference a
nil pointer for any non-matching selection token, and makes the
`ProcessWildcards` single-mode branch dereference a nil pointer for a
wildcard key whose defaulted object has no stream variables. -/
theorem C5_null_stream_panic :
    Compile Fx.rcNull none ["b"] Fx.noDisc "" = .error .nilDeref
    ∧ ProcessWildcards Fx.rcNullW Fx.noDisc = .error .nilDeref :=
  ⟨rfl, rfl⟩

/-- C6 (counterexample): stream `b` is not selected (`a` is the only matched
stream), yet compilation aborts with MissingTarget for `b` — the empty-object
check runs before the selection check. -/
theorem C6_counterexample :
    Compile Fx.rcC6 none ["a"] Fx.noDisc "" = .error (.missingTarget "b")
    ∧ (buildMatched Fx.rcC6 ["a"]).map akeys = some ["a"] :=
  ⟨rfl, rfl⟩

/-- C7 (counterexample): with two streams, `SLING_STREAM_CNT=2` passes while
`SLING_STREAM_CNT=">2"` aborts — `>N` demands strictly more than `N`, not "at
least `N`". -/
theorem C7_counterexample :
    Compile Fx.rcAB none [] Fx.noDisc ">2" = .error (.assertionError ["a", "b"])
    ∧ ∃ r, Compile Fx.rcAB none [] Fx.noDisc "2" = .ok r :=
  ⟨rfl, ⟨_, rfl⟩⟩

/-- C8 (counterexample): the tokens `a*` and `"a*"` are
normalisation-equivalent, yet the first selects stream `ab` by glob and the
second selects nothing — glob matching only lowercases the token and keeps
its quote characters. -/
theorem C8_counterexample :
    Normalize "a*" = Normalize "\"a*\""
    ∧ (Compile Fx.rcG none ["a*"] Fx.noDisc "").map (fun r => r.Tasks.map (·.streamName))
      = .ok ["ab"]
    ∧ (Compile Fx.rcG none ["\"a*\""] Fx.noDisc "").map (fun r => r.Tasks.map (·.streamName))
      = .ok [] :=
  ⟨rfl, rfl, rfl⟩

/-- C9 (counterexample): a refresh overwrites the already-populated source
schema summary field with the task's value. -/
theorem C9_counterexample :
    Fx.st9.Source.Schema = "custom"
    ∧ (refreshState (some Fx.st9) "s" "t" [] true [Fx.t9] 5).Source.Schema = "s1" :=
  ⟨rfl, rfl⟩

/-- C10 (counterexample): `AddStream` with a key already present leaves the
map with one binding but appends the key to the order list again, so the
ordered list no longer lists each map key exactly once. -/
theorem C10_counterexample :
    (AddStream Fx.rc10 "a" (some {})).streamsOrdered = ["a", "a"]
    ∧ akeys (AddStream Fx.rc10 "a" (some {})).Streams = ["a"] :=
  ⟨rfl, rfl⟩

/-- C3 (counterexample): with `single` absent from the presence map and the
defaults leaving `single` unset, defaulting stores an explicit `false`
rather than copying the unset default value. -/
theorem C3_counterexample :
    Fx.rcD3.Defaults.Single = none
    ∧ (SetStreamDefaults "s" {} Fx.rcD3).Single = some false :=
  ⟨rfl, rfl⟩

/-! ## C1 (amended): the re-compile branch -/

/-- C1 (amended): invoking `Compile` on an already-compiled config performs
no wildcard discovery and no re-filtering pipeline: with a non-empty
selection it keeps, in order, exactly the existing tasks whose stream name
appears verbatim in the selection; with an empty selection it returns the
config unchanged; the result does not depend on the discoverer, overwrite,
or assertion environment. -/
theorem C1_recompile_filters (rc : RC) (ov ov2 : Option COV) (sel : List String)
    (disc disc2 : String → DiscResult) (env env2 : String) (h : rc.Compiled = true) :
    Compile rc ov sel disc env =
      .ok (if 0 < sel.length then
            { rc with Tasks := rc.Tasks.filter (fun t => sel.contains t.streamName) }
          else rc)
    ∧ Compile rc ov sel disc env = Compile rc ov2 sel disc2 env2 := by
  constructor
  · simp only [Compile, h, if_true]
    by_cases hs : 0 < sel.length <;> simp [hs]
  · simp only [Compile, h, if_true]

/-- Witness for `C1_recompile_filters` at a concrete compiled config. -/
theorem C1_recompile_filters_witness :
    Fx.rcDone.Compiled = true
    ∧ Compile Fx.rcDone none ["b"] Fx.noDisc "" =
        .ok (if 0 < (["b"] : List String).length then
              { Fx.rcDone with
                Tasks := Fx.rcDone.Tasks.filter (fun t => ["b"].contains t.streamName) }
            else Fx.rcDone) :=
  ⟨rfl, (C1_recompile_filters Fx.rcDone none none ["b"] Fx.noDisc Fx.noDisc "" "" rfl).1⟩

/-! ## C7 (amended): the stream-count assertion -/

/-- C7 (amended): when `SLING_STREAM_CNT` is unset (empty) no assertion is
applied; `>N` accepts exactly the counts strictly greater than `N`; a plain
value accepts exactly the count equal to its integer cast; any failure is an
AssertionError carrying the matched then candidate stream names. -/
theorem C7_stream_cnt_assertion (cnt : Nat) (m i : List String) (e : String) :
    (e = "" → testStreamCnt cnt m i e = .ok ())
    ∧ (strHasPrefix e ">" = true →
        (testStreamCnt cnt m i e = .ok () ↔ toIntDef (strTrimPre e ">") < (cnt : Int)))
    ∧ (e ≠ "" → strHasPrefix e ">" = false →
        (testStreamCnt cnt m i e = .ok () ↔ (cnt : Int) = toIntDef e))
    ∧ (testStreamCnt cnt m i e ≠ .ok () →
        testStreamCnt cnt m i e = .error (.assertionError (m ++ i))) := by
  by_cases h1 : e = ""
  · subst h1
    exact ⟨fun _ => rfl, fun hp => absurd hp (by decide),
      fun hne => absurd rfl hne, fun hne => absurd rfl hne⟩
  · have hbeq : (e == "") = false := by simpa using h1
    by_cases h2 : strHasPrefix e ">" = true
    · by_cases h3 : (cnt : Int) ≤ toIntDef (strTrimPre e ">")
      · have hres : testStreamCnt cnt m i e = .error (.assertionError (m ++ i)) := by
          simp [testStreamCnt, hbeq, h2, h3]
        refine ⟨fun hc => absurd hc h1, fun _ => ?_,
          fun _ hp => absurd h2 (by simp [hp]), fun _ => hres⟩
        rw [hres]
        exact ⟨fun hco => Except.noConfusion hco, fun hlt => absurd h3 (by omega)⟩
      · have hres : testStreamCnt cnt m i e = .ok () := by
          simp [testStreamCnt, hbeq, h2, h3]
        refine ⟨fun hc => absurd hc h1, fun _ => ?_,
          fun _ hp => absurd h2 (by simp [hp]), fun hne => absurd hres hne⟩
        rw [hres]
        exact ⟨fun _ => by omega, fun _ => rfl⟩
    · have h2f : strHasPrefix e ">" = false := by simpa using h2
      by_cases h4 : (cnt : Int) = toIntDef e
      · have hres : testStreamCnt cnt m i e = .ok () := by
          simp [testStreamCnt, hbeq, h2f, h4]
        exact ⟨fun hc => absurd hc h1, fun hp => absurd hp h2,
          fun _ _ => by rw [hres]; exact ⟨fun _ => h4, fun _ => rfl⟩,
          fun hne => absurd hres hne⟩
      · have hres : testStreamCnt cnt m i e = .error (.assertionError (m ++ i)) := by
          simp [testStreamCnt, hbeq, h2f, h4]
        refine ⟨fun hc => absurd hc h1, fun hp => absurd hp h2, fun _ _ => ?_,
          fun _ => hres⟩
        rw [hres]
        exact ⟨fun hco => Except.noConfusion hco, fun heq => absurd heq h4⟩

/-- Witness for `C7_stream_cnt_assertion`: three streams pass `>2`. -/
theorem C7_stream_cnt_assertion_witness :
    strHasPrefix ">2" ">" = true ∧ testStreamCnt 3 [] ["a", "b", "c"] ">2" = .ok () :=
  ⟨by decide,
    ((C7_stream_cnt_assertion 3 [] ["a", "b", "c"] ">2").2.1 (by decide)).mpr (by decide)⟩

/-! ## Association-list lemmas -/

theorem alookup_append {α : Type} (l1 l2 : List (String × α)) (k : String) :
    alookup (l1 ++ l2) k = (alookup l1 k).orElse (fun _ => alookup l2 k) := by
  induction l1 with
  | nil => rfl
  | cons p rest ih =>
    by_cases h : p.1 == k
    · simp [alookup, List.find?, h]
    · simp only [List.cons_append, alookup, List.find?, h] at ih ⊢
      exact ih

/-! ## C9 (amended): runtime-state refresh -/

theorem refreshTask_Timestamp (st : RuntimeState) (t : TaskStateInfo) :
    (refreshTask st t).Timestamp = st.Timestamp := by
  unfold refreshTask
  dsimp only
  split <;> split <;> rfl

theorem refreshTask_Runs_mono (st : RuntimeState) (t : TaskStateInfo) (id : String)
    (v : RunState) (h : alookup st.Runs id = some v) :
    alookup (refreshTask st t).Runs id = some v := by
  unfold refreshTask
  dsimp only
  split <;> split
  · exact h
  · rw [alookup_append, h]
    rfl
  · exact h
  · rw [alookup_append, h]
    rfl

theorem foldl_refreshTask_Timestamp (tasks : List TaskStateInfo) (st : RuntimeState) :
    (tasks.foldl refreshTask st).Timestamp = st.Timestamp := by
  induction tasks generalizing st with
  | nil => rfl
  | cons t rest ih => rw [List.foldl_cons, ih, refreshTask_Timestamp]

theorem foldl_refreshTask_Runs_mono (tasks : List TaskStateInfo) (st : RuntimeState)
    (id : String) (v : RunState) (h : alookup st.Runs id = some v) :
    alookup (tasks.foldl refreshTask st).Runs id = some v := by
  induction tasks generalizing st with
  | nil => exact h
  | cons t rest ih => exact ih _ (refreshTask_Runs_mono st t id v h)

/-- C9 (amended): every refresh sets the timestamp to the current tick, and
existing run entries are never overwritten — any run id already bound keeps
its exact `RunState`.  (Source/target summary fields, by contrast, are
unconditionally reassigned from the task list on each invocation, as
`C9_counterexample` shows.) -/
theorem C9_refresh_preserves_runs (s : RuntimeState) (src tgt : String)
    (env : List (String × String)) (compiled : Bool) (tasks : List TaskStateInfo)
    (now : Nat) :
    (refreshState (some s) src tgt env compiled tasks now).Timestamp = now
    ∧ (∀ id v, alookup s.Runs id = some v →
        alookup (refreshState (some s) src tgt env compiled tasks now).Runs id = some v) := by
  unfold refreshState
  dsimp only
  constructor
  · split
    · exact foldl_refreshTask_Timestamp tasks _
    · rfl
  · intro id v h
    split
    · exact foldl_refreshTask_Runs_mono tasks _ id v h
    · exact h

/-- Witness for `C9_refresh_preserves_runs`: the pre-existing run `r1`
survives a refresh that processes a task with the same run id. -/
theorem C9_refresh_preserves_runs_witness :
    alookup Fx.st9.Runs "r1" = some { ID := "zzz" }
    ∧ (refreshState (some Fx.st9) "s" "t" [] true [Fx.t9] 5).Timestamp = 5
    ∧ alookup (refreshState (some Fx.st9) "s" "t" [] true [Fx.t9] 5).Runs "r1"
        = some { ID := "zzz" } :=
  ⟨rfl, (C9_refresh_preserves_runs Fx.st9 "s" "t" [] true [Fx.t9] 5).1,
    (C9_refresh_preserves_runs Fx.st9 "s" "t" [] true [Fx.t9] 5).2 "r1" { ID := "zzz" } rfl⟩

/-! ## C3 (amended): presence-based defaulting -/

/-- C3 (amended): defaulting is presence-based over exactly the fields
`mode`, `object`, `select`, `where`, `primary_key`, `update_key`, `sql`,
`schedule`, `tags`, `disabled`, `single`, `transforms`, `columns`, `hooks`:
a field whose key appears in the stream's raw presence map keeps the
stream's value (even a zero value), and a field whose key is absent receives
the defaults value — except `single`, whose absent case stores the
materialised pointer `some (default or false)`, so an unset default becomes
an explicit `false`. -/
theorem C3_presence_based_defaults (name : String) (st : RSC) (rc : RC)
    (m : List String) (hm : m = (alookup rc.mapsStreams name).getD []) :
    ((m.contains "mode" = true → (SetStreamDefaults name st rc).Mode = st.Mode)
      ∧ (m.contains "mode" = false → (SetStreamDefaults name st rc).Mode = rc.Defaults.Mode))
    ∧ ((m.contains "object" = true → (SetStreamDefaults name st rc).Object = st.Object)
      ∧ (m.contains "object" = false → (SetStreamDefaults name st rc).Object = rc.Defaults.Object))
    ∧ ((m.contains "select" = true → (SetStreamDefaults name st rc).Select = st.Select)
      ∧ (m.contains "select" = false → (SetStreamDefaults name st rc).Select = rc.Defaults.Select))
    ∧ ((m.contains "where" = true → (SetStreamDefaults name st rc).Where = st.Where)
      ∧ (m.contains "where" = false → (SetStreamDefaults name st rc).Where = rc.Defaults.Where))
    ∧ ((m.contains "primary_key" = true →
          (SetStreamDefaults name st rc).PrimaryKeyI = st.PrimaryKeyI)
      ∧ (m.contains "primary_key" = false →
          (SetStreamDefaults name st rc).PrimaryKeyI = rc.Defaults.PrimaryKeyI))
    ∧ ((m.contains "update_key" = true →
          (SetStreamDefaults name st rc).UpdateKey = st.UpdateKey)
      ∧ (m.contains "update_key" = false →
          (SetStreamDefaults name st rc).UpdateKey = rc.Defaults.UpdateKey))
    ∧ ((m.contains "sql" = true → (SetStreamDefaults name st rc).SQL = st.SQL)
      ∧ (m.contains "sql" = false → (SetStreamDefaults name st rc).SQL = rc.Defaults.SQL))
    ∧ ((m.contains "schedule" = true →
          (SetStreamDefaults name st rc).Schedule = st.Schedule)
      ∧ (m.contains "schedule" = false →
          (SetStreamDefaults name st rc).Schedule = rc.Defaults.Schedule))
    ∧ ((m.contains "tags" = true → (SetStreamDefaults name st rc).Tags = st.Tags)
      ∧ (m.contains "tags" = false → (SetStreamDefaults name st rc).Tags = rc.Defaults.Tags))
    ∧ ((m.contains "disabled" = true →
          (SetStreamDefaults name st rc).Disabled = st.Disabled)
      ∧ (m.contains "disabled" = false →
          (SetStreamDefaults name st rc).Disabled = rc.Defaults.Disabled))
    ∧ ((m.contains "single" = true → (SetStreamDefaults name st rc).Single = st.Single)
      ∧ (m.contains "single" = false →
          (SetStreamDefaults name st rc).Single = some (rc.Defaults.Single.getD false)))
    ∧ ((m.contains "transforms" = true →
          (SetStreamDefaults name st rc).Transforms = st.Transforms)
      ∧ (m.contains "transforms" = false →
          (SetStreamDefaults name st rc).Transforms = rc.Defaults.Transforms))
    ∧ ((m.contains "columns" = true →
          (SetStreamDefaults name st rc).Columns = st.Columns)
      ∧ (m.contains "columns" = false →
          (SetStreamDefaults name st rc).Columns = rc.Defaults.Columns))
    ∧ ((m.contains "hooks" = true → (SetStreamDefaults name st rc).Hooks = st.Hooks)
      ∧ (m.contains "hooks" = false →
          (SetStreamDefaults name st rc).Hooks = rc.Defaults.Hooks)) := by
  subst hm
  refine ⟨?_, ?_, ?_, ?_, ?_, ?_, ?_, ?_, ?_, ?_, ?_, ?_, ?_, ?_⟩ <;>
    exact ⟨fun h => by simp at h; simp [SetStreamDefaults, h],
      fun h => by simp at h; simp [SetStreamDefaults, h]⟩

/-- Witness for `C3_presence_based_defaults`: a present `mode` key keeps the
stream's blank mode; the absent `where` key copies the default. -/
theorem C3_presence_based_defaults_witness :
    (SetStreamDefaults "s" { Mode := "" } Fx.rcD3b).Mode = ""
    ∧ (SetStreamDefaults "s" { Mode := "" } Fx.rcD3b).Where = Fx.rcD3b.Defaults.Where := by
  have h := C3_presence_based_defaults "s" { Mode := "" } Fx.rcD3b
    ["mode", "object"] (by rfl)
  exact ⟨h.1.1 (by decide), h.2.2.2.1.2 (by decide)⟩

/-! ## C6 (amended): the MissingTarget check -/

theorem pwPhase1_no_wildcards (rc : RC) (names : List String)
    (h : ∀ m ∈ names, hasWildcardName m = false) :
    ∀ M pats, pwPhase1 rc names M pats = .ok (M, pats) := by
  induction names with
  | nil => intro M pats; rfl
  | cons m0 rest ih =>
    intro M pats
    have hm0 : hasWildcardName m0 = false := h m0 (by simp)
    have hrest : ∀ m ∈ rest, hasWildcardName m = false := fun m hm => h m (by simp [hm])
    have hstar : (m0 == "*") = false := by
      rcases hb : m0 == "*" with _ | _
      · rfl
      · have hms : m0 = "*" := by simpa using hb
        rw [hms] at hm0
        exact absurd hm0 (by decide)
    rw [pwPhase1]
    dsimp only
    split
    · exact ih hrest M pats
    · rw [hstar]
      simp only [Bool.false_eq_true, if_false, hm0]
      exact ih hrest M pats

theorem ProcessWildcards_no_wildcards (rc : RC) (disc : String → DiscResult)
    (h : ∀ m ∈ rc.streamsOrdered, hasWildcardName m = false) :
    ProcessWildcards rc disc = .ok rc := by
  unfold ProcessWildcards
  rw [pwPhase1_no_wildcards rc rc.streamsOrdered h rc.Streams []]
  rfl

theorem msStep_isSome (pattern : String) (res : List (String × Option RSC))
    (p : String × Option RSC) (hp : p.2.isSome) :
    (msStep pattern (some res) p).isSome := by
  unfold msStep
  rcases p with ⟨k, _ | c⟩
  · exact absurd hp (by simp)
  · dsimp only
    split
    · rfl
    · split
      · rfl
      · split <;> rfl

theorem foldl_msStep_isSome (pattern : String) (l : List (String × Option RSC))
    (hl : ∀ p ∈ l, p.2.isSome) :
    ∀ res, (l.foldl (msStep pattern) (some res)).isSome := by
  induction l with
  | nil => intro res; rfl
  | cons p rest ih =>
    intro res
    have hp := hl p (by simp)
    have hrest : ∀ q ∈ rest, q.2.isSome := fun q hq => hl q (by simp [hq])
    rw [List.foldl_cons]
    rcases hs : msStep pattern (some res) p with _ | res1
    · exact absurd (hs ▸ msStep_isSome pattern res p hp) (by simp)
    · exact ih hrest res1

theorem MatchStreams_isSome (rc : RC) (pattern : String)
    (h : ∀ p ∈ rc.Streams, p.2.isSome) : (MatchStreams rc pattern).isSome :=
  foldl_msStep_isSome pattern rc.Streams h []

theorem buildMatched_isSome (rc : RC) (sel : List String)
    (h : ∀ p ∈ rc.Streams, p.2.isSome) : (buildMatched rc sel).isSome := by
  unfold buildMatched
  suffices hgen : ∀ (ms : MS), ((sel.foldl (bmStep rc) (some ms))).isSome by
    exact hgen []
  induction sel with
  | nil => intro ms; rfl
  | cons tok rest ih =>
    intro ms
    rw [List.foldl_cons]
    rcases hms : MatchStreams rc tok with _ | found
    · exact absurd (hms ▸ MatchStreams_isSome rc tok h) (by simp)
    · rw [show bmStep rc (some ms) tok
          = some (found.foldl (fun m kv => mapInsert m (Normalize kv.1) kv.2) ms) by
        unfold bmStep; rw [hms]]
      exact ih _

theorem compileLoop_missingTarget_iff (rc : RC) (ov : Option COV) (selCount : Nat)
    (inc exc : List String) (n : String) :
    ∀ (names : List String) (ms : MS) (tasks : List Config),
      compileLoop rc ov selCount inc exc names ms tasks = .error (.missingTarget n)
        ↔ names.find? (fun m => defObj rc m == "") = some n := by
  intro names
  induction names with
  | nil => intro ms tasks; simp [compileLoop]
  | cons m0 rest ih =>
    intro ms tasks
    rw [compileLoop]
    dsimp only
    by_cases hobj : ((SetStreamDefaults m0 ((joinLookup rc.Streams m0).getD {}) rc).Object == "") = true
    · rw [if_pos hobj]
      rw [List.find?_cons_of_pos _ (by simpa [defObj] using hobj)]
      constructor
      · intro hco
        exact congrArg some (by
          have := congrArg (fun e =>
            match e with
            | Except.error (CErr.missingTarget x) => x
            | _ => "") hco
          simpa using this)
      · intro hco
        rw [show m0 = n by simpa using hco]
    · rw [if_neg (by simpa using hobj)]
      rw [List.find?_cons_of_neg _ (by simpa [defObj] using hobj)]
      have hstep : ∀ (ms2 : MS) (t2 t3 : List Config) (c : Prop) [Decidable c],
          ((if c then compileLoop rc ov selCount inc exc rest ms2 t2
            else compileLoop rc ov selCount inc exc rest ms2 t3)
              = .error (.missingTarget n))
            ↔ rest.find? (fun m => defObj rc m == "") = some n := by
        intro ms2 t2 t3 c _
        split
        · exact ih ms2 t2
        · exact ih ms2 t3
      exact hstep _ _ _ _

theorem compileLoop_error_shape (rc : RC) (ov : Option COV) (selCount : Nat)
    (inc exc : List String) :
    ∀ (names : List String) (ms : MS) (tasks : List Config) (e : CErr),
      compileLoop rc ov selCount inc exc names ms tasks = .error e →
      ∃ n, e = .missingTarget n := by
  intro names
  induction names with
  | nil => intro ms tasks e h; exact absurd h (by simp [compileLoop])
  | cons m0 rest ih =>
    intro ms tasks e h
    rw [compileLoop] at h
    dsimp only at h
    by_cases hobj : ((SetStreamDefaults m0 ((joinLookup rc.Streams m0).getD {}) rc).Object == "") = true
    · rw [if_pos hobj] at h
      exact ⟨m0, by simpa using h.symm⟩
    · rw [if_neg (by simpa using hobj)] at h
      revert h
      have hstep : ∀ (ms2 : MS) (t2 t3 : List Config) (c : Prop) [Decidable c],
          ((if c then compileLoop rc ov selCount inc exc rest ms2 t2
            else compileLoop rc ov selCount inc exc rest ms2 t3) = .error e)
            → ∃ n, e = .missingTarget n := by
        intro ms2 t2 t3 c _
        split
        · exact fun h2 => ih _ _ _ h2
        · exact fun h2 => ih _ _ _ h2
      exact hstep _ _ _ _

theorem testStreamCnt_error_shape (cnt : Nat) (m i : List String) (e : String)
    (e2 : CErr) (h : testStreamCnt cnt m i e = .error e2) :
    ∃ l, e2 = .assertionError l := by
  revert h
  unfold testStreamCnt
  split
  · exact fun h => Except.noConfusion h
  · split
    · split
      · intro h
        injection h with h2
        exact ⟨m ++ i, h2.symm⟩
      · exact fun h => Except.noConfusion h
    · split
      · intro h
        injection h with h2
        exact ⟨m ++ i, h2.symm⟩
      · exact fun h => Except.noConfusion h

/-- C6 (amended): for a config with no wildcard keys, no null stream configs
and a non-conflicting selection vector, compilation fails with
`MissingTarget n` exactly when `n` is the first stream in YAML order whose
defaulted `object` is empty — whether or not `n` is selected; the error
carries that stream's name.  (Selection does not exempt a stream from the
check, as `C6_counterexample` shows.) -/
theorem C6_missing_target_iff (rc : RC) (ov : Option COV) (sel : List String)
    (disc : String → DiscResult) (env : String) (n : String)
    (hc : rc.Compiled = false)
    (hnw : ∀ m ∈ rc.streamsOrdered, hasWildcardName m = false)
    (hnn : ∀ p ∈ rc.Streams, p.2.isSome)
    (htags : ¬(sel.filterMap
        (fun t => if strHasPrefix t "tag:" then some (strTrimPre t "tag:") else none) ≠ []
      ∧ sel.filterMap
        (fun t => if strHasPrefix t "-tag:" then some (strTrimPre t "-tag:") else none) ≠ [])) :
    Compile rc ov sel disc env = .error (.missingTarget n)
      ↔ rc.streamsOrdered.find? (fun m => defObj rc m == "") = some n := by
  unfold Compile
  rw [hc]
  simp only [Bool.false_eq_true, if_false]
  simp only [ProcessWildcards_no_wildcards rc disc hnw]
  rcases hbm : buildMatched rc sel with _ | ms0
  · exact absurd (hbm ▸ buildMatched_isSome rc sel hnn) (by simp)
  · simp only [hbm]
    rw [if_neg htags]
    rcases hloop : compileLoop rc ov sel.length
        (sel.filterMap (fun t => if strHasPrefix t "tag:" then some (strTrimPre t "tag:") else none))
        (sel.filterMap (fun t => if strHasPrefix t "-tag:" then some (strTrimPre t "-tag:") else none))
        rc.streamsOrdered ms0 rc.Tasks with e | ok
    · obtain ⟨n0, rfl⟩ := compileLoop_error_shape rc ov sel.length _ _ _ _ _ _ hloop
      simp only [hloop]
      constructor
      · intro hco
        injection hco with h1
        injection h1 with h2
        subst h2
        exact (compileLoop_missingTarget_iff rc ov sel.length _ _ n0
          rc.streamsOrdered ms0 rc.Tasks).mp hloop
      · intro hfind
        have h2 := (compileLoop_missingTarget_iff rc ov sel.length
          (sel.filterMap (fun t => if strHasPrefix t "tag:" then some (strTrimPre t "tag:") else none))
          (sel.filterMap (fun t => if strHasPrefix t "-tag:" then some (strTrimPre t "-tag:") else none))
          n rc.streamsOrdered ms0 rc.Tasks).mpr hfind
        rw [hloop] at h2
        injection h2 with h3
        injection h3 with h4
        rw [h4]
    · rcases ok with ⟨ms1, tasks1⟩
      simp only [hloop]
      constructor
      · intro hco
        rcases htc : testStreamCnt (if sel.length > 0 then ms1.length else rc.Streams.length)
            (akeys ms1) (akeys rc.Streams) env with e2 | u
        · rw [htc] at hco
          obtain ⟨l, rfl⟩ := testStreamCnt_error_shape _ _ _ _ _ htc
          injection hco with hco2
          exact absurd hco2 (by intro hh; cases hh)
        · rw [htc] at hco
          exact absurd hco (by simp)
      · intro hfind
        exfalso
        have h2 := (compileLoop_missingTarget_iff rc ov sel.length
          (sel.filterMap (fun t => if strHasPrefix t "tag:" then some (strTrimPre t "tag:") else none))
          (sel.filterMap (fun t => if strHasPrefix t "-tag:" then some (strTrimPre t "-tag:") else none))
          n rc.streamsOrdered ms0 rc.Tasks).mpr hfind
        rw [hloop] at h2
        exact Except.noConfusion h2

/-- Witness for `C6_missing_target_iff`: with no selection, the first stream
with an empty defaulted object (`b`) is reported. -/
theorem C6_missing_target_iff_witness :
    Compile Fx.rcC6 none [] Fx.noDisc "" = .error (.missingTarget "b") :=
  (C6_missing_target_iff Fx.rcC6 none [] Fx.noDisc "" "b" rfl (by decide) (by decide)
    (by simp)).mpr (by rfl)

/-! ## C8 (amended): case-insensitive selection -/

theorem toLowerStr_eq_empty_iff (t : String) : toLowerStr t = "" ↔ t = "" := by
  obtain ⟨l⟩ := t
  unfold toLowerStr
  constructor
  · intro h
    have hl : l.map Char.toLower = [] := by
      have := congrArg String.toList h
      simpa using this
    have : l = [] := by simpa using hl
    rw [this]
  · intro h
    have hl2 : l = [] := by
      have := congrArg String.toList h
      simpa using this
    rw [hl2]
    rfl

theorem strHasPrefix_toLower (t p : String) (hp : toLowerStr p = p)
    (h : strHasPrefix t p = true) : strHasPrefix (toLowerStr t) p = true := by
  unfold strHasPrefix at h ⊢
  have h2 : p.toList <+: t.toList := by simpa using h
  have h3 : p.toList.map Char.toLower <+: t.toList.map Char.toLower := h2.map Char.toLower
  have h7 : p.toList.map Char.toLower = p.toList := congrArg String.toList hp
  exact decide_eq_true (h7 ▸ h3)

theorem msStep_congr (t1 t2 : String) (hn : Normalize t1 = Normalize t2)
    (hl : toLowerStr t1 = toLowerStr t2) (hiff : (t1 = "") ↔ (t2 = ""))
    (acc : Option (List (String × Option RSC))) (p : String × Option RSC)
    (hp : ∃ c, p.2 = some c ∧ c.ID = "") :
    msStep t1 acc p = msStep t2 acc p := by
  obtain ⟨k, v⟩ := p
  obtain ⟨c, hpc, hid⟩ := hp
  dsimp only at hpc
  subst hpc
  have hb : (("" : String) == t1) = (("" : String) == t2) := by
    by_cases h1 : t1 = ""
    · have h2 := hiff.mp h1
      rw [h1, h2]
    · have h2 : ¬ t2 = "" := fun hh => h1 (hiff.mpr hh)
      have e1 : (("" : String) == t1) = false :=
        beq_eq_false_iff_ne.mpr (fun hh => h1 hh.symm)
      have e2 : (("" : String) == t2) = false :=
        beq_eq_false_iff_ne.mpr (fun hh => h2 hh.symm)
      rw [e1, e2]
  unfold msStep
  cases acc with
  | none => rfl
  | some res =>
    dsimp only
    rw [hn, hid, hb, hl]

theorem foldl_msStep_congr (t1 t2 : String) (hn : Normalize t1 = Normalize t2)
    (hl : toLowerStr t1 = toLowerStr t2) (hiff : (t1 = "") ↔ (t2 = "")) :
    ∀ (l : List (String × Option RSC)),
      (∀ p ∈ l, ∃ c, p.2 = some c ∧ c.ID = "") →
      ∀ acc, l.foldl (msStep t1) acc = l.foldl (msStep t2) acc := by
  intro l
  induction l with
  | nil => intro _ acc; rfl
  | cons p rest ih =>
    intro hall acc
    rw [List.foldl_cons, List.foldl_cons,
      msStep_congr t1 t2 hn hl hiff acc p (hall p (by simp))]
    exact ih (fun q hq => hall q (by simp [hq])) _

/-- C8 (amended): selection is invariant under letter-case changes of the
token — for tokens with equal lowercased (hence equal normalised) forms,
against a not-yet-compiled config without wildcard keys in which every
stream config is non-null with an empty `id`, and for non-tag tokens,
compiling with either token yields the same result.  Quote-stripping
equivalence does not hold (`C8_counterexample`), because the glob branch
only lowercases the token and the `id` branch compares it verbatim. -/
theorem C8_case_insensitive_selection (rc : RC) (ov : Option COV)
    (disc : String → DiscResult) (env : String) (t1 t2 : String)
    (hc : rc.Compiled = false)
    (hnw : ∀ m ∈ rc.streamsOrdered, hasWildcardName m = false)
    (hn : Normalize t1 = Normalize t2)
    (hl : toLowerStr t1 = toLowerStr t2)
    (hids : ∀ p ∈ rc.Streams, ∃ c, p.2 = some c ∧ c.ID = "")
    (htag : strHasPrefix (toLowerStr t1) "tag:" = false)
    (hmtag : strHasPrefix (toLowerStr t1) "-tag:" = false) :
    Compile rc ov [t1] disc env = Compile rc ov [t2] disc env := by
  have hiff : (t1 = "") ↔ (t2 = "") := by
    rw [← toLowerStr_eq_empty_iff t1, ← toLowerStr_eq_empty_iff t2, hl]
  have hpfx : ∀ t, toLowerStr t = toLowerStr t1 →
      strHasPrefix t "tag:" = false ∧ strHasPrefix t "-tag:" = false := by
    intro t ht
    constructor
    · by_cases hb : strHasPrefix t "tag:" = true
      · have := strHasPrefix_toLower t "tag:" (by decide) hb
        rw [ht] at this
        exact absurd this (by simp [htag])
      · simpa using hb
    · by_cases hb : strHasPrefix t "-tag:" = true
      · have := strHasPrefix_toLower t "-tag:" (by decide) hb
        rw [ht] at this
        exact absurd this (by simp [hmtag])
      · simpa using hb
  obtain ⟨hp1, hm1⟩ := hpfx t1 rfl
  obtain ⟨hp2, hm2⟩ := hpfx t2 hl.symm
  have hbm : buildMatched rc [t1] = buildMatched rc [t2] := by
    unfold buildMatched
    simp only [List.foldl_cons, List.foldl_nil]
    unfold bmStep
    rw [show MatchStreams rc t1 = MatchStreams rc t2 from
      foldl_msStep_congr t1 t2 hn hl hiff rc.Streams hids (some [])]
  unfold Compile
  rw [hc]
  simp only [Bool.false_eq_true, if_false]
  simp only [ProcessWildcards_no_wildcards rc disc hnw]
  rw [hbm]
  simp only [List.filterMap_cons, List.filterMap_nil, hp1, hp2, hm1, hm2,
    Bool.false_eq_true, if_false, List.length_cons, List.length_nil]

/-- Witness for `C8_case_insensitive_selection`: tokens `AB` and `ab` select
identically. -/
theorem C8_case_insensitive_selection_witness :
    Compile Fx.rcG none ["AB"] Fx.noDisc "" = Compile Fx.rcG none ["ab"] Fx.noDisc "" :=
  C8_case_insensitive_selection Fx.rcG none Fx.noDisc "" "AB" "ab" rfl (by decide)
    (by decide) (by decide) (by decide) (by decide) (by decide)

/-! ## More association-list lemmas -/

theorem find?_key_isSome_iff {α : Type} (m : List (String × α)) (k : String) :
    (m.find? (fun p => p.1 == k)).isSome ↔ k ∈ akeys m := by
  induction m with
  | nil => simp [akeys]
  | cons p rest ih =>
    by_cases h : p.1 = k
    · simp [List.find?, akeys, h]
    · have hb : (p.1 == k) = false := beq_eq_false_iff_ne.mpr h
      simp only [List.find?, hb, akeys, List.map_cons, List.mem_cons]
      rw [ih]
      constructor
      · exact fun hh => Or.inr hh
      · rintro (hh | hh)
        · exact absurd hh.symm h
        · exact hh

theorem mem_akeys_mapInsert {α : Type} (m : List (String × α)) (k : String) (v : α)
    (x : String) : x ∈ akeys (mapInsert m k v) ↔ x ∈ akeys m ∨ x = k := by
  unfold mapInsert
  split
  · rename_i hfind
    have hk : k ∈ akeys m := (find?_key_isSome_iff m k).mp hfind
    have hkeys : akeys (m.map (fun p => if p.1 == k then (k, v) else p)) = akeys m := by
      unfold akeys
      rw [List.map_map]
      apply List.map_congr_left
      intro p _
      by_cases h : p.1 = k
      · simp [h]
      · simp [h]
    rw [hkeys]
    constructor
    · exact fun hh => Or.inl hh
    · rintro (hh | hh)
      · exact hh
      · exact hh ▸ hk
  · simp [akeys]

theorem mem_akeys_mapErase {α : Type} (m : List (String × α)) (k x : String) :
    x ∈ akeys (mapErase m k) ↔ x ∈ akeys m ∧ x ≠ k := by
  unfold mapErase akeys
  induction m with
  | nil => simp
  | cons p rest ih =>
    rw [List.filter_cons]
    by_cases h : p.1 = k
    · have hd : (decide (p.1 ≠ k)) = false := by simp [h]
      rw [hd]
      simp only [Bool.false_eq_true, if_false]
      rw [ih]
      subst h
      simp only [List.map_cons, List.mem_cons]
      constructor
      · rintro ⟨h1, h2⟩
        exact ⟨Or.inr h1, h2⟩
      · rintro ⟨h1 | h1, h2⟩
        · exact absurd h1 h2
        · exact ⟨h1, h2⟩
    · have hd : (decide (p.1 ≠ k)) = true := by simp [h]
      rw [hd]
      simp only [if_true]
      simp only [List.map_cons, List.mem_cons]
      rw [ih]
      constructor
      · rintro (h1 | ⟨h1, h2⟩)
        · exact ⟨Or.inl h1, h1 ▸ h⟩
        · exact ⟨Or.inr h1, h2⟩
      · rintro ⟨h1 | h1, h2⟩
        · exact Or.inl h1
        · exact Or.inr ⟨h1, h2⟩

theorem joinLookup_some_mem (m : StreamMap) (k : String) (st : RSC)
    (h : joinLookup m k = some st) : k ∈ akeys m := by
  unfold joinLookup alookup at h
  rcases hf : m.find? (fun p => p.1 == k) with _ | p
  · rw [hf] at h
    exact absurd h (by simp)
  · exact (find?_key_isSome_iff m k).mp (by simp [hf])

theorem find?_map_replace {α : Type} (k k2 : String) (v : α) (hne : k2 ≠ k) :
    ∀ (l : List (String × α)),
      (l.map (fun p => if p.1 == k then (k, v) else p)).find? (fun p => p.1 == k2)
        = l.find? (fun p => p.1 == k2) := by
  intro l
  induction l with
  | nil => rfl
  | cons p rest ih =>
    rw [List.map_cons]
    simp only [List.find?_cons]
    by_cases h : p.1 = k
    · have e1 : (if p.1 == k then (k, v) else p) = (k, v) := by simp [h]
      have e2 : (((k, v) : String × α).1 == k2) = false := by
        simp [Ne.symm hne]
      have e3 : (p.1 == k2) = false := by simp [h, Ne.symm hne]
      rw [e1, e2, e3]
      exact ih
    · have e1 : (if p.1 == k then (k, v) else p) = p := by simp [h]
      rw [e1]
      rcases hb : (p.1 == k2) with _ | _
      · simp only [hb]
        exact ih
      · simp only [hb]

theorem alookup_mapInsert_ne {α : Type} (m : List (String × α)) (k k2 : String) (v : α)
    (hne : k2 ≠ k) : alookup (mapInsert m k v) k2 = alookup m k2 := by
  unfold mapInsert
  split
  · unfold alookup
    rw [find?_map_replace k k2 v hne m]
  · rw [alookup_append]
    have h2 : alookup [(k, v)] k2 = none := by
      unfold alookup
      rw [List.find?_cons_of_neg _ (by simp [Ne.symm hne])]
      rfl
    rcases hf : alookup m k2 with _ | w
    · rw [hf] at *
      show (Option.none.orElse fun _ => alookup [(k, v)] k2) = none
      rw [h2]
      rfl
    · rfl

theorem joinLookup_mapInsert_ne (m : StreamMap) (k k2 : String) (v : Option RSC)
    (hne : k2 ≠ k) : joinLookup (mapInsert m k v) k2 = joinLookup m k2 := by
  unfold joinLookup
  rw [alookup_mapInsert_ne m k k2 v hne]

/-! ## Phase-1 wildcard collection lemmas -/

theorem pwPhase1_pats_sub (rc : RC) :
    ∀ (names : List String) (M : StreamMap) (pats0 : List String)
      (M1 : StreamMap) (pats1 : List String),
      pwPhase1 rc names M pats0 = .ok (M1, pats1) →
      ∀ x ∈ pats1, x ∈ pats0 ∨ x ∈ names := by
  intro names
  induction names with
  | nil =>
    intro M pats0 M1 pats1 h x hx
    injection h with h2
    injection h2 with h3 h4
    exact Or.inl (h4 ▸ hx)
  | cons m0 rest ih =>
    intro M pats0 M1 pats1 h x hx
    rw [pwPhase1] at h
    dsimp only at h
    split at h
    · rcases ih _ _ _ _ h x hx with h1 | h1
      · exact Or.inl h1
      · exact Or.inr (by simp [h1])
    · split at h
      · exact absurd h (by simp)
      · split at h
        · split at h
          · rcases ih _ _ _ _ h x hx with h1 | h1
            · rcases List.mem_append.mp h1 with h2 | h2
              · exact Or.inl h2
              · exact Or.inr (by simpa using Or.inl (by simpa using h2))
            · exact Or.inr (by simp [h1])
          · split at h
            · exact absurd h (by simp)
            · rcases ih _ _ _ _ h x hx with h1 | h1
              · exact Or.inl h1
              · exact Or.inr (by simp [h1])
        · rcases ih _ _ _ _ h x hx with h1 | h1
          · exact Or.inl h1
          · exact Or.inr (by simp [h1])

theorem pwPhase1_keys_mono (rc : RC) :
    ∀ (names : List String) (M : StreamMap) (pats0 : List String)
      (M1 : StreamMap) (pats1 : List String),
      pwPhase1 rc names M pats0 = .ok (M1, pats1) →
      ∀ x ∈ akeys M, x ∈ akeys M1 := by
  intro names
  induction names with
  | nil =>
    intro M pats0 M1 pats1 h x hx
    injection h with h2
    injection h2 with h3 h4
    exact h3 ▸ hx
  | cons m0 rest ih =>
    intro M pats0 M1 pats1 h x hx
    rw [pwPhase1] at h
    dsimp only at h
    split at h
    · exact ih _ _ _ _ h x hx
    · split at h
      · exact absurd h (by simp)
      · split at h
        · split at h
          · exact ih _ _ _ _ h x hx
          · split at h
            · exact absurd h (by simp)
            · exact ih _ _ _ _ h x ((mem_akeys_mapInsert _ _ _ x).mpr (Or.inl hx))
        · exact ih _ _ _ _ h x hx

theorem pwPhase1_single_not_pattern (rc : RC) (name : String) (st : RSC)
    (hsingle : st.Single = none) (hdef : rc.Defaults.Single ≠ some true)
    (hwild : hasWildcardName name = true)
    (hvars : ObjectHasStreamVars (SetStreamDefaults name st rc) = false) :
    ∀ (names : List String) (M : StreamMap) (pats0 : List String)
      (M1 : StreamMap) (pats1 : List String),
      names.Nodup →
      joinLookup M name = some st →
      pwPhase1 rc names M pats0 = .ok (M1, pats1) →
      name ∉ pats0 → name ∉ pats1 := by
  intro names
  induction names with
  | nil =>
    intro M pats0 M1 pats1 _ _ h h0
    injection h with h2
    injection h2 with h3 h4
    exact h4 ▸ h0
  | cons m0 rest ih =>
    intro M pats0 M1 pats1 hnodup hlook h h0
    have hnodup2 : rest.Nodup := hnodup.of_cons
    by_cases hm0 : m0 = name
    · subst hm0
      have hnr : m0 ∉ rest := by
        have := List.nodup_cons.mp hnodup
        exact this.1
      rw [pwPhase1] at h
      dsimp only at h
      rw [hlook] at h
      dsimp only at h
      rw [hsingle] at h
      have hbeq : (rc.Defaults.Single == some true) = false := beq_eq_false_iff_ne.mpr hdef
      simp only [hbeq, Bool.false_eq_true, if_false] at h
      by_cases hstar : (m0 == "*") = true
      · rw [if_pos hstar] at h
        exact absurd h (by simp)
      · rw [if_neg hstar] at h
        rw [hwild] at h
        simp only [if_true] at h
        rw [show ((some st).getD ({} : RSC)) = st from rfl] at h
        rw [hvars] at h
        simp only [Bool.false_eq_true, if_false] at h
        intro hx
        rcases pwPhase1_pats_sub rc _ _ _ _ _ h m0 hx with h1 | h1
        · exact h0 h1
        · exact hnr h1
    · intro hx
      rw [pwPhase1] at h
      dsimp only at h
      have hlook2 : ∀ v, joinLookup (mapInsert M m0 v) name = some st := by
        intro v
        rw [joinLookup_mapInsert_ne M m0 name v (fun hh => hm0 hh.symm)]
        exact hlook
      split at h
      · exact ih _ _ _ _ hnodup2 hlook h h0 hx
      · split at h
        · exact absurd h (by simp)
        · split at h
          · split at h
            · have h0b : name ∉ pats0 ++ [m0] := by
                intro hmem
                rcases List.mem_append.mp hmem with h1 | h1
                · exact h0 h1
                · have h2 : name = m0 := by simpa using h1
                  exact hm0 h2.symm
              exact ih _ _ _ _ hnodup2 hlook h h0b hx
            · split at h
              · exact absurd h (by simp)
              · exact ih _ _ _ _ hnodup2 (hlook2 _) h h0 hx
          · exact ih _ _ _ _ hnodup2 hlook h h0 hx

/-! ## Merge-phase counting lemmas -/

theorem getStreamFound_mem (m : StreamMap) (k wsn : String) (hk : k ∈ akeys m)
    (hnorm : Normalize wsn = Normalize k) : getStreamFound m wsn = true := by
  unfold getStreamFound
  rw [List.any_eq_true]
  obtain ⟨p, hp, hpk⟩ := List.mem_map.mp hk
  exact ⟨p, hp, by simp [hpk, hnorm]⟩

theorem mergeNames_count (pat name : String) :
    ∀ (ns : List String) (rc : RC) (acc : List String),
      name ∈ akeys rc.Streams →
      ((mergeNames pat ns rc acc).2.count name = acc.count name
        ∧ name ∈ akeys (mergeNames pat ns rc acc).1.Streams
        ∧ (mergeNames pat ns rc acc).1.Tasks = rc.Tasks) := by
  intro ns
  induction ns with
  | nil => exact fun rc acc h => ⟨rfl, h, rfl⟩
  | cons wsn rest ih =>
    intro rc acc hmem
    rw [mergeNames]
    by_cases hf : getStreamFound rc.Streams wsn = true
    · rw [if_pos hf]
      exact ih rc acc hmem
    · rw [if_neg hf]
      have hne : wsn ≠ name := by
        intro hh
        exact hf (getStreamFound_mem rc.Streams name wsn hmem (by rw [hh]))
      have hmem2 : name ∈ akeys (AddStream rc wsn (joinLookup rc.Streams pat)).Streams :=
        (mem_akeys_mapInsert _ _ _ name).mpr (Or.inl hmem)
      obtain ⟨hcnt, hm, ht⟩ := ih _ (acc ++ [wsn]) hmem2
      refine ⟨?_, hm, ht⟩
      rw [hcnt, List.count_append]
      have hz : List.count name [wsn] = 0 :=
        List.count_eq_zero.mpr (by simpa using Ne.symm hne)
      rw [hz]
      simp

theorem mergeWilds_no_match (origName : String) :
    ∀ (wilds : List (String × List String)) (rc : RC) (acc : List String) (matched : Bool),
      (∀ w ∈ wilds, w.1 ≠ origName) →
      mergeWilds origName wilds rc acc matched = (rc, acc, matched) := by
  intro wilds
  induction wilds with
  | nil => intro rc acc matched _; rfl
  | cons w ws ih =>
    intro rc acc matched hall
    rw [mergeWilds]
    rw [if_neg (by simpa using hall w (by simp))]
    exact ih rc acc matched (fun w2 hw2 => hall w2 (by simp [hw2]))

theorem mergeWilds_count (origName name : String) :
    ∀ (wilds : List (String × List String)) (rc : RC) (acc : List String) (matched : Bool),
      name ∈ akeys rc.Streams →
      (∀ w ∈ wilds, w.1 ≠ name) →
      ((mergeWilds origName wilds rc acc matched).2.1.count name = acc.count name
        ∧ name ∈ akeys (mergeWilds origName wilds rc acc matched).1.Streams
        ∧ (mergeWilds origName wilds rc acc matched).1.Tasks = rc.Tasks) := by
  intro wilds
  induction wilds with
  | nil => exact fun rc acc matched h _ => ⟨rfl, h, rfl⟩
  | cons w ws ih =>
    intro rc acc matched hmem hall
    rw [mergeWilds]
    have hallws : ∀ w2 ∈ ws, w2.1 ≠ name := fun w2 hw2 => hall w2 (by simp [hw2])
    by_cases hw : (w.1 == origName) = true
    · rw [if_pos hw]
      obtain ⟨hcnt1, hm1, ht1⟩ := mergeNames_count w.1 name w.2 rc acc hmem
      have hm2 : name ∈ akeys (DeleteStream (mergeNames w.1 w.2 rc acc).1 w.1).Streams :=
        (mem_akeys_mapErase _ _ name).mpr ⟨hm1, fun hh => hall w (by simp) hh.symm⟩
      obtain ⟨hcnt2, hm3, ht2⟩ := ih _ _ true hm2 hallws
      refine ⟨by rw [hcnt2, hcnt1], hm3, by rw [ht2]; exact ht1⟩
    · rw [if_neg hw]
      exact ih rc acc matched hmem hallws

theorem mergeLoop_count (wilds : List (String × List String)) (name : String)
    (hall : ∀ w ∈ wilds, w.1 ≠ name) :
    ∀ (orig : List String) (rc : RC) (acc : List String),
      name ∈ akeys rc.Streams →
      ((mergeLoop wilds orig rc acc).2.count name = acc.count name + orig.count name
        ∧ (mergeLoop wilds orig rc acc).1.Tasks = rc.Tasks) := by
  intro orig
  induction orig with
  | nil => exact fun rc acc h => ⟨by simp [mergeLoop], by simp [mergeLoop]⟩
  | cons origName rest ih =>
    intro rc acc hmem
    rw [mergeLoop]
    by_cases ho : origName = name
    · subst ho
      rw [mergeWilds_no_match origName wilds rc acc false hall]
      dsimp only
      simp only [Bool.false_eq_true, if_false]
      obtain ⟨hcnt, ht⟩ := ih rc (acc ++ [origName]) hmem
      refine ⟨?_, ht⟩
      rw [hcnt, List.count_append]
      simp [List.count_cons]
      omega
    · obtain ⟨hcnt1, hm1, ht1⟩ := mergeWilds_count origName name wilds rc acc false hmem hall
      rcases hmw : mergeWilds origName wilds rc acc false with ⟨rc2, acc2, matched⟩
      rw [hmw] at hcnt1 hm1 ht1
      dsimp only at hcnt1 hm1 ht1 ⊢
      have hcntacc : (if matched then acc2 else acc2 ++ [origName]).count name = acc.count name := by
        split
        · exact hcnt1
        · rw [List.count_append, hcnt1]
          have hz2 : List.count name [origName] = 0 :=
            List.count_eq_zero.mpr (by simpa using fun hh => ho hh.symm)
          rw [hz2]
          simp
      obtain ⟨hcnt2, ht2⟩ := ih rc2 _ hm1
      refine ⟨?_, by rw [ht2]; exact ht1⟩
      rw [hcnt2, hcntacc, List.count_cons_of_ne (Ne.symm ho)]

theorem buildWildcards_mem (disc : String → DiscResult) :
    ∀ (pats : List String) (wilds : List (String × List String)),
      buildWildcards disc pats = .ok wilds → ∀ w ∈ wilds, w.1 ∈ pats := by
  intro pats
  induction pats with
  | nil =>
    intro wilds h w hw
    injection h with h2
    rw [← h2] at hw
    exact absurd hw (by simp)
  | cons p rest ih =>
    intro wilds h w hw
    rw [buildWildcards] at h
    split at h
    · exact List.mem_cons.mpr (Or.inr (ih _ h w hw))
    · exact absurd h (by simp)
    · rename_i names hd
      rcases hbw : buildWildcards disc rest with e | ws2
      · rw [hbw] at h
        exact absurd h (by simp [Except.map])
      · rw [hbw] at h
        simp only [Except.map] at h
        injection h with h2
        rw [← h2] at hw
        rcases List.mem_cons.mp hw with h3 | h3
        · exact List.mem_cons.mpr (Or.inl (by rw [h3]))
        · exact List.mem_cons.mpr (Or.inr (ih _ hbw w h3))

/-! ## Compile-loop task emission -/

theorem buildConfig_streamName (rc : RC) (name : String) (s : RSC)
    (e : List (String × String)) (i : String) :
    (buildConfig rc name s e i).streamName = name := by
  unfold buildConfig
  dsimp only
  split <;> rfl

theorem compileLoop_zero_sel_tasks (rc : RC) (ov : Option COV)
    (inc exc : List String) :
    ∀ (names : List String) (ms : MS) (tasks : List Config) (ms1 : MS)
      (tasks1 : List Config),
      compileLoop rc ov 0 inc exc names ms tasks = .ok (ms1, tasks1) →
      tasks1.map (fun t => t.streamName) = tasks.map (fun t => t.streamName) ++ names := by
  intro names
  induction names with
  | nil =>
    intro ms tasks ms1 tasks1 h
    injection h with h2
    injection h2 with h3 h4
    rw [← h4]
    simp
  | cons m0 rest ih =>
    intro ms tasks ms1 tasks1 h
    rw [compileLoop] at h
    dsimp only at h
    split at h
    · exact absurd h (by simp)
    · rw [if_neg (by simp)] at h
      have := ih _ _ _ _ h
      rw [this]
      simp [buildConfig_streamName, applyOverwrite]

theorem filter_streamName_count (l : List Config) (name : String) :
    (l.filter (fun t => t.streamName == name)).length
      = (l.map (fun t => t.streamName)).count name := by
  induction l with
  | nil => rfl
  | cons t rest ih =>
    rw [List.map_cons, List.filter_cons]
    by_cases h : t.streamName = name
    · rw [if_pos (by simp [h]), List.count_cons]
      simp [h, ih]
    · rw [if_neg (by simp [h]), List.count_cons]
      simp [h, ih]

/-! ## C4: single-mode short-circuit -/

/-- C4: for a wildcard stream key whose config is non-null with an unset
`single` flag (and no forced default single), if the defaulted `object`
contains none of the stream-variable placeholders then the wildcard is never
collected as a discovery pattern — the Discoverer is not consulted for it —
and a successful selection-free compile emits exactly one task whose stream
name is the wildcard pattern itself. -/
theorem C4_single_mode_short_circuit (rc : RC) (disc : String → DiscResult) (env : String)
    (name : String) (st : RSC) (rc3 : RC)
    (hc : rc.Compiled = false) (htasks : rc.Tasks = [])
    (hnodup : rc.streamsOrdered.Nodup)
    (hmem : name ∈ rc.streamsOrdered)
    (hlook : joinLookup rc.Streams name = some st)
    (hsingle : st.Single = none) (hdsingle : rc.Defaults.Single ≠ some true)
    (hwild : hasWildcardName name = true)
    (hvars : ObjectHasStreamVars (SetStreamDefaults name st rc) = false)
    (hok : Compile rc none [] disc env = .ok rc3) :
    (∀ M1 pats, pwPhase1 rc rc.streamsOrdered rc.Streams [] = .ok (M1, pats) → name ∉ pats)
    ∧ (rc3.Tasks.filter (fun t => t.streamName == name)).length = 1 := by
  have part1 : ∀ M1 pats,
      pwPhase1 rc rc.streamsOrdered rc.Streams [] = .ok (M1, pats) → name ∉ pats :=
    fun M1 pats hp =>
      pwPhase1_single_not_pattern rc name st hsingle hdsingle hwild hvars
        rc.streamsOrdered rc.Streams [] M1 pats hnodup hlook hp (by simp)
  refine ⟨part1, ?_⟩
  unfold Compile at hok
  rw [hc] at hok
  simp only [Bool.false_eq_true, if_false] at hok
  rcases hpw : ProcessWildcards rc disc with e | rc1
  · rw [hpw] at hok
    exact absurd hok (by simp)
  simp only [hpw] at hok
  simp only [show buildMatched rc1 [] = some ([] : MS) from rfl] at hok
  simp only [List.filterMap_nil, List.length_nil] at hok
  rw [if_neg (by simp)] at hok
  -- analyse the wildcard phase to learn the post-wildcard config
  have hstate : rc1.Tasks = [] ∧ rc1.streamsOrdered.count name = 1 := by
    unfold ProcessWildcards at hpw
    rcases hp1 : pwPhase1 rc rc.streamsOrdered rc.Streams [] with e | Mp
    · rw [hp1] at hpw
      exact absurd hpw (by simp)
    rcases Mp with ⟨M1, pats⟩
    simp only [hp1] at hpw
    have hnp : name ∉ pats := part1 M1 pats hp1
    have hcount1 : rc.streamsOrdered.count name = 1 :=
      List.count_eq_one_of_mem hnodup hmem
    by_cases hpe : pats.isEmpty = true
    · rw [if_pos hpe] at hpw
      injection hpw with h3
      rw [← h3]
      exact ⟨htasks, hcount1⟩
    · rw [if_neg hpe] at hpw
      rcases hbw : buildWildcards disc pats with e | wilds
      · rw [hbw] at hpw
        exact absurd hpw (by simp)
      simp only [hbw] at hpw
      injection hpw with h3
      have hall : ∀ w ∈ wilds, w.1 ≠ name := fun w hw hh =>
        hnp (hh ▸ buildWildcards_mem disc pats wilds hbw w hw)
      have hmemM1 : name ∈ akeys M1 :=
        pwPhase1_keys_mono rc _ _ _ _ _ hp1 name (joinLookup_some_mem _ _ _ hlook)
      obtain ⟨hcnt, ht⟩ :=
        mergeLoop_count wilds name hall rc.streamsOrdered { rc with Streams := M1 } [] hmemM1
      constructor
      · rw [← h3]
        dsimp only
        rw [ht]
        exact htasks
      · rw [← h3]
        dsimp only
        rw [hcnt, hcount1]
        simp
  obtain ⟨hT, hcnt1⟩ := hstate
  rcases hloop : compileLoop rc1 none 0 [] [] rc1.streamsOrdered [] rc1.Tasks with e | pr
  · rw [hloop] at hok
    exact absurd hok (by simp)
  rcases pr with ⟨ms, tasks⟩
  simp only [hloop] at hok
  rw [if_neg (by simp)] at hok
  rcases htc : testStreamCnt rc1.Streams.length (akeys ms) (akeys rc1.Streams) env with e2 | u
  · rw [htc] at hok
    exact absurd hok (by simp)
  rw [htc] at hok
  injection hok with h2
  rw [← h2]
  have htaskn : tasks.map (fun t => t.streamName)
      = rc1.Tasks.map (fun t => t.streamName) ++ rc1.streamsOrdered :=
    compileLoop_zero_sel_tasks rc1 none [] [] rc1.streamsOrdered [] rc1.Tasks ms tasks hloop
  show (tasks.filter (fun t => t.streamName == name)).length = 1
  rw [filter_streamName_count, htaskn, hT]
  simpa using hcnt1

/-- Witness for `C4_single_mode_short_circuit`: the file wildcard with a
plain object compiles to exactly one task named after the pattern. -/
theorem C4_single_mode_short_circuit_witness :
    Compile Fx.rcS none [] Fx.noDisc "" = .ok Fx.rcS3
    ∧ (Fx.rcS3.Tasks.filter (fun t => t.streamName == "s3b/*.csv")).length = 1 :=
  ⟨rfl,
    (C4_single_mode_short_circuit Fx.rcS Fx.noDisc "" "s3b/*.csv" { Object := "tbl" }
      Fx.rcS3 rfl rfl (by decide) (by decide) rfl rfl (by decide) (by decide)
      (by decide) rfl).2⟩

/-! ## Key-list equations for the merge phase -/

theorem getStreamFound_eq_false (m : StreamMap) (n : String)
    (h : ∀ k ∈ akeys m, Normalize n ≠ Normalize k) : getStreamFound m n = false := by
  unfold getStreamFound
  rw [List.any_eq_false]
  intro p hp hh
  have heq : Normalize p.1 = Normalize n := by simpa using hh
  exact h p.1 (List.mem_map_of_mem _ hp) heq.symm

theorem akeys_mapInsert_present {α : Type} (m : List (String × α)) (k : String) (v : α)
    (h : k ∈ akeys m) : akeys (mapInsert m k v) = akeys m := by
  unfold mapInsert
  rw [if_pos ((find?_key_isSome_iff m k).mpr h)]
  unfold akeys
  rw [List.map_map]
  apply List.map_congr_left
  intro p _
  by_cases hp : p.1 = k
  · simp [hp]
  · simp [hp]

theorem akeys_mapInsert_absent {α : Type} (m : List (String × α)) (k : String) (v : α)
    (h : k ∉ akeys m) : akeys (mapInsert m k v) = akeys m ++ [k] := by
  unfold mapInsert
  rw [if_neg (fun hs => h ((find?_key_isSome_iff m k).mp hs))]
  unfold akeys
  rw [List.map_append]
  rfl

theorem akeys_mapErase_eq {α : Type} (m : List (String × α)) (k : String) :
    akeys (mapErase m k) = (akeys m).filter (fun x => x ≠ k) := by
  unfold mapErase akeys
  induction m with
  | nil => rfl
  | cons p rest ih =>
    rw [List.filter_cons, List.map_cons, List.filter_cons]
    by_cases h : p.1 = k
    · rw [if_neg (by simp [h]), if_neg (by simp [h])]
      exact ih
    · rw [if_pos (by simp [h]), if_pos (by simp [h]), List.map_cons, ih]

theorem pwPhase1_akeys_eq (rc : RC) :
    ∀ (names : List String) (M : StreamMap) (pats0 : List String)
      (M1 : StreamMap) (pats1 : List String),
      pwPhase1 rc names M pats0 = .ok (M1, pats1) → akeys M1 = akeys M := by
  intro names
  induction names with
  | nil =>
    intro M pats0 M1 pats1 h
    injection h with h2
    injection h2 with h3 h4
    rw [h3]
  | cons m0 rest ih =>
    intro M pats0 M1 pats1 h
    rw [pwPhase1] at h
    dsimp only at h
    split at h
    · exact ih _ _ _ _ h
    · split at h
      · exact absurd h (by simp)
      · split at h
        · split at h
          · exact ih _ _ _ _ h
          · rename_i hsv hw hov
            rcases hml : joinLookup M m0 with _ | st
            · rw [hml] at h
              exact absurd h (by simp)
            · rw [hml] at h
              have hm0 : m0 ∈ akeys M := joinLookup_some_mem M m0 st hml
              rw [ih _ _ _ _ h]
              exact akeys_mapInsert_present M m0 _ hm0
        · exact ih _ _ _ _ h

theorem pwPhase1_pats_wild (rc : RC) :
    ∀ (names : List String) (M : StreamMap) (pats0 : List String)
      (M1 : StreamMap) (pats1 : List String),
      pwPhase1 rc names M pats0 = .ok (M1, pats1) →
      ∀ x ∈ pats1, x ∈ pats0 ∨ hasWildcardName x = true := by
  intro names
  induction names with
  | nil =>
    intro M pats0 M1 pats1 h x hx
    injection h with h2
    injection h2 with h3 h4
    exact Or.inl (h4 ▸ hx)
  | cons m0 rest ih =>
    intro M pats0 M1 pats1 h x hx
    rw [pwPhase1] at h
    dsimp only at h
    split at h
    · exact ih _ _ _ _ h x hx
    · split at h
      · exact absurd h (by simp)
      · split at h
        · rename_i hnw hw
          split at h
          · rcases ih _ _ _ _ h x hx with h1 | h1
            · rcases List.mem_append.mp h1 with h2 | h2
              · exact Or.inl h2
              · have : x = m0 := by simpa using h2
                exact Or.inr (this ▸ hw)
            · exact Or.inr h1
          · split at h
            · exact absurd h (by simp)
            · exact ih _ _ _ _ h x hx
        · exact ih _ _ _ _ h x hx

theorem pwPhase1_pats_nodup (rc : RC) :
    ∀ (names : List String) (M : StreamMap) (pats0 : List String)
      (M1 : StreamMap) (pats1 : List String),
      names.Nodup → pats0.Nodup → (∀ x ∈ pats0, x ∉ names) →
      pwPhase1 rc names M pats0 = .ok (M1, pats1) → pats1.Nodup := by
  intro names
  induction names with
  | nil =>
    intro M pats0 M1 pats1 _ hp0 _ h
    injection h with h2
    injection h2 with h3 h4
    exact h4 ▸ hp0
  | cons m0 rest ih =>
    intro M pats0 M1 pats1 hnody hp0 hdisj h
    have hnody2 : rest.Nodup := hnody.of_cons
    have hm0r : m0 ∉ rest := (List.nodup_cons.mp hnody).1
    have hdisj2 : ∀ x ∈ pats0, x ∉ rest := fun x hx hr => hdisj x hx (by simp [hr])
    rw [pwPhase1] at h
    dsimp only at h
    split at h
    · exact ih _ _ _ _ hnody2 hp0 hdisj2 h
    · split at h
      · exact absurd h (by simp)
      · split at h
        · split at h
          · have hp0b : (pats0 ++ [m0]).Nodup := by
              rw [List.nodup_append]
              exact ⟨hp0, List.nodup_singleton m0,
                fun x hx => by
                  simp only [List.mem_singleton]
                  intro hh
                  exact hdisj x hx (by simp [hh])⟩
            have hdisjb : ∀ x ∈ pats0 ++ [m0], x ∉ rest := by
              intro x hx
              rcases List.mem_append.mp hx with h1 | h1
              · exact hdisj2 x h1
              · have : x = m0 := by simpa using h1
                exact this ▸ hm0r
            exact ih _ _ _ _ hnody2 hp0b hdisjb h
          · split at h
            · exact absurd h (by simp)
            · exact ih _ _ _ _ hnody2 hp0 hdisj2 h
        · exact ih _ _ _ _ hnody2 hp0 hdisj2 h

theorem buildWildcards_patterns_sublist (disc : String → DiscResult) :
    ∀ (pats : List String) (wilds : List (String × List String)),
      buildWildcards disc pats = .ok wilds →
      (wilds.map (fun w => w.1)).Sublist pats := by
  intro pats
  induction pats with
  | nil =>
    intro wilds h
    injection h with h2
    rw [← h2]
    exact List.Sublist.refl _
  | cons p rest ih =>
    intro wilds h
    rw [buildWildcards] at h
    split at h
    · exact (ih _ h).trans (List.sublist_cons_self p rest)
    · exact absurd h (by simp)
    · rename_i names hd
      rcases hbw : buildWildcards disc rest with e | ws2
      · rw [hbw] at h
        exact absurd h (by simp [Except.map])
      · rw [hbw] at h
        simp only [Except.map] at h
        injection h with h2
        rw [← h2, List.map_cons]
        exact (ih _ hbw).cons₂ p

theorem find?_pattern_of_mem (wilds : List (String × List String)) (W : String)
    (ns : List String) (hmem : (W, ns) ∈ wilds)
    (hpN : (wilds.map (fun w => w.1)).Nodup) :
    wilds.find? (fun w => w.1 == W) = some (W, ns) := by
  induction wilds with
  | nil => exact absurd hmem (by simp)
  | cons w ws ih =>
    rw [List.map_cons] at hpN
    rcases List.mem_cons.mp hmem with h1 | h1
    · rw [← h1]
      exact List.find?_cons_of_pos _ (by simp)
    · have hw1 : w.1 ≠ W := by
        intro hh
        have : W ∈ ws.map (fun w => w.1) := List.mem_map_of_mem _ h1
        exact (List.nodup_cons.mp hpN).1 (hh ▸ this)
      rw [List.find?_cons_of_neg _ (by simpa using hw1)]
      exact ih h1 (List.nodup_cons.mp hpN).2

theorem mergeNames_char (pat : String) :
    ∀ (ns : List String) (rc : RC) (acc : List String),
      (ns.map Normalize).Nodup →
      (∀ n ∈ ns, ∀ k ∈ akeys rc.Streams, Normalize n ≠ Normalize k) →
      (mergeNames pat ns rc acc).2 = acc ++ ns ∧
      akeys (mergeNames pat ns rc acc).1.Streams = akeys rc.Streams ++ ns := by
  intro ns
  induction ns with
  | nil => intro rc acc _ _; exact ⟨by simp [mergeNames], by simp [mergeNames]⟩
  | cons n rest ih =>
    intro rc acc hnd hfresh
    have hgf : getStreamFound rc.Streams n = false :=
      getStreamFound_eq_false rc.Streams n (hfresh n (by simp))
    rw [mergeNames, hgf]
    simp only [Bool.false_eq_true, if_false]
    have hnotin : n ∉ akeys rc.Streams := fun hin => hfresh n (by simp) n hin rfl
    have hkeys : akeys (AddStream rc n (joinLookup rc.Streams pat)).Streams
        = akeys rc.Streams ++ [n] := by
      unfold AddStream
      exact akeys_mapInsert_absent _ _ _ hnotin
    rw [List.map_cons, List.nodup_cons] at hnd
    have hfresh2 : ∀ m ∈ rest,
        ∀ k ∈ akeys (AddStream rc n (joinLookup rc.Streams pat)).Streams,
        Normalize m ≠ Normalize k := by
      intro m hm k hk
      rw [hkeys] at hk
      rcases List.mem_append.mp hk with h1 | h1
      · exact hfresh m (by simp [hm]) k h1
      · have hkn : k = n := by simpa using h1
        subst hkn
        intro he
        exact hnd.1 (he ▸ List.mem_map_of_mem _ hm)
    rcases ih (AddStream rc n (joinLookup rc.Streams pat)) (acc ++ [n]) hnd.2 hfresh2
      with ⟨h1, h2⟩
    exact ⟨by rw [h1]; simp, by rw [h2, hkeys]; simp⟩

theorem mergeWilds_found (origName : String) :
    ∀ (ws : List (String × List String)) (w0 : String × List String),
      ws.find? (fun w => w.1 == origName) = some w0 →
      (ws.map (fun w => w.1)).Nodup →
      ∀ (rc : RC) (acc : List String),
      mergeWilds origName ws rc acc false =
        (DeleteStream (mergeNames w0.1 w0.2 rc acc).1 w0.1,
          (mergeNames w0.1 w0.2 rc acc).2, true) := by
  intro ws
  induction ws with
  | nil => intro w0 hfind; exact absurd hfind (by simp)
  | cons w rest ih =>
    intro w0 hfind hpN rc acc
    rw [List.map_cons, List.nodup_cons] at hpN
    rw [mergeWilds]
    by_cases hw : (w.1 == origName) = true
    · simp only [List.find?_cons, hw] at hfind
      injection hfind with hfind
      subst hfind
      rw [if_pos hw]
      have hrest : ∀ v ∈ rest, v.1 ≠ origName := by
        intro v hv hh
        have hwo : w.1 = origName := by simpa using hw
        exact hpN.1 (hwo ▸ hh ▸ List.mem_map_of_mem _ hv)
      rcases hmn : mergeNames w.1 w.2 rc acc with ⟨rc1, acc1⟩
      dsimp only
      rw [mergeWilds_no_match origName rest _ _ true hrest]
    · simp only [Bool.not_eq_true] at hw
      simp only [List.find?_cons, hw] at hfind
      rw [if_neg (by simp [hw])]
      exact ih w0 hfind hpN.2 rc acc

theorem mergeLoop_char (wilds : List (String × List String))
    (hpN : (wilds.map (fun w => w.1)).Nodup)
    (hWD : ∀ w ∈ wilds, (w.2.map Normalize).Nodup)
    (hXD : ∀ w ∈ wilds, ∀ v ∈ wilds, w.1 ≠ v.1 →
      ∀ n ∈ w.2, ∀ m ∈ v.2, Normalize n ≠ Normalize m) :
    ∀ (orig : List String) (rc : RC) (acc : List String),
      (acc ++ orig).Nodup →
      (akeys rc.Streams).Nodup →
      List.Perm (akeys rc.Streams) (acc ++ orig) →
      (∀ w ∈ wilds, w.1 ∈ orig → ∀ n ∈ w.2, ∀ k ∈ akeys rc.Streams,
        Normalize n ≠ Normalize k) →
      (mergeLoop wilds orig rc acc).2 = acc ++ orig.flatMap (expandW wilds) ∧
      (akeys (mergeLoop wilds orig rc acc).1.Streams).Nodup ∧
      List.Perm (akeys (mergeLoop wilds orig rc acc).1.Streams)
        (mergeLoop wilds orig rc acc).2 := by
  intro orig
  induction orig with
  | nil =>
    intro rc acc _ hkN hperm _
    refine ⟨by simp [mergeLoop], by simpa [mergeLoop] using hkN, ?_⟩
    simpa [mergeLoop] using hperm
  | cons origName rest ih =>
    intro rc acc hN hkN hperm hJ
    rw [mergeLoop]
    rcases hfind : wilds.find? (fun w => w.1 == origName) with _ | w0
    · have hnom : ∀ w ∈ wilds, w.1 ≠ origName := by
        intro w hw hh
        have := List.find?_eq_none.mp hfind w hw
        exact this (by simpa using hh)
      rw [mergeWilds_no_match origName wilds rc acc false hnom]
      dsimp only
      simp only [Bool.false_eq_true, if_false]
      have hexp : expandW wilds origName = [origName] := by
        unfold expandW
        rw [hfind]
      have hN2 : (acc ++ [origName] ++ rest).Nodup := by
        rw [List.append_assoc]
        simpa using hN
      have hperm2 : List.Perm (akeys rc.Streams) (acc ++ [origName] ++ rest) := by
        rw [List.append_assoc]
        simpa using hperm
      have hJ2 : ∀ w ∈ wilds, w.1 ∈ rest → ∀ n ∈ w.2, ∀ k ∈ akeys rc.Streams,
          Normalize n ≠ Normalize k :=
        fun w hw hr => hJ w hw (by simp [hr])
      rcases ih rc (acc ++ [origName]) hN2 hkN hperm2 hJ2 with ⟨h1, h2, h3⟩
      refine ⟨?_, h2, h3⟩
      rw [h1, List.flatMap_cons, hexp]
      simp
    · have hw0 : w0 ∈ wilds := List.mem_of_find?_eq_some hfind
      have hw0n : w0.1 = origName := by
        have := List.find?_some hfind
        simpa using this
      rw [mergeWilds_found origName wilds w0 hfind hpN rc acc]
      dsimp only
      simp only [if_true]
      -- facts about the splice of w0.2
      have hfreshW : ∀ n ∈ w0.2, ∀ k ∈ akeys rc.Streams, Normalize n ≠ Normalize k :=
        hJ w0 hw0 (by simp [hw0n])
      rcases mergeNames_char w0.1 w0.2 rc acc (hWD w0 hw0) hfreshW with ⟨hacc1, hkeys1⟩
      have hWmem : origName ∈ akeys rc.Streams :=
        hperm.mem_iff.mpr (by simp)
      have hWacc : origName ∉ acc := by
        intro hh
        exact (List.disjoint_of_nodup_append hN) hh (by simp)
      have hWrest : origName ∉ rest := by
        have := (List.nodup_append.mp hN).2.1
        exact (List.nodup_cons.mp this).1
      have hWns : ∀ n ∈ w0.2, n ≠ origName := by
        intro n hn hh
        exact hfreshW n hn origName hWmem (by rw [hh])
      -- keys after the delete
      have hkeys2 : akeys (DeleteStream (mergeNames w0.1 w0.2 rc acc).1 w0.1).Streams
          = (akeys rc.Streams ++ w0.2).filter (fun x => x ≠ origName) := by
        unfold DeleteStream
        dsimp only
        rw [akeys_mapErase_eq, hkeys1, hw0n]
      have hnsdisj : ∀ n ∈ w0.2, n ∉ akeys rc.Streams := by
        intro n hn hin
        exact hfreshW n hn n hin rfl
      have hnsN : w0.2.Nodup := (hWD w0 hw0).of_map
      have hkN2 : ((akeys rc.Streams ++ w0.2).filter (fun x => x ≠ origName)).Nodup := by
        refine List.Nodup.filter _ ?_
        rw [List.nodup_append]
        exact ⟨hkN, hnsN, fun x hx hy => hnsdisj x hy hx⟩
      -- the permutation for the recursive call
      have hpermmid : List.Perm (akeys rc.Streams ++ w0.2)
          ((acc ++ origName :: rest) ++ w0.2) := hperm.append_right w0.2
      have hfiltr : ((acc ++ origName :: rest) ++ w0.2).filter (fun x => x ≠ origName)
          = acc ++ rest ++ w0.2 := by
        rw [List.filter_append, List.filter_append, List.filter_cons]
        rw [if_neg (by simp)]
        rw [List.filter_eq_self.mpr (fun a ha => by
          simp only [ne_eq, decide_eq_true_eq]
          intro hh
          exact hWacc (hh ▸ ha))]
        rw [List.filter_eq_self.mpr (fun a ha => by
          simp only [ne_eq, decide_eq_true_eq]
          intro hh
          exact hWrest (hh ▸ ha))]
        rw [List.filter_eq_self.mpr (fun a ha => by
          simp only [ne_eq, decide_eq_true_eq]
          exact hWns a ha)]
      have hperm3 : List.Perm
          ((akeys rc.Streams ++ w0.2).filter (fun x => x ≠ origName))
          ((acc ++ w0.2) ++ rest) := by
        refine (hpermmid.filter _).trans ?_
        rw [hfiltr, List.append_assoc, List.append_assoc]
        exact List.Perm.append_left acc List.perm_append_comm
      -- Nodup of the new acc-orig list
      have hnsacc : ∀ n ∈ w0.2, n ∉ acc := by
        intro n hn hh
        exact hfreshW n hn n (hperm.mem_iff.mpr (by simp [hh])) rfl
      have hnsrest : ∀ n ∈ w0.2, n ∉ rest := by
        intro n hn hh
        exact hfreshW n hn n (hperm.mem_iff.mpr (by simp [hh])) rfl
      have hN3 : ((acc ++ w0.2) ++ rest).Nodup := by
        rw [List.nodup_append, List.nodup_append]
        have hacc0 : acc.Nodup := (List.nodup_append.mp hN).1
        have hrest0 : rest.Nodup := by
          have := (List.nodup_append.mp hN).2.1
          exact (List.nodup_cons.mp this).2
        refine ⟨⟨hacc0, hnsN, fun x hx hy => hnsacc x hy hx⟩, hrest0, ?_⟩
        intro x hx hy
        rcases List.mem_append.mp hx with h1 | h1
        · exact (List.disjoint_of_nodup_append hN) h1 (by simp [hy])
        · exact hnsrest x h1 hy
      -- freshness for the recursive call
      have hJ3 : ∀ w ∈ wilds, w.1 ∈ rest → ∀ n ∈ w.2,
          ∀ k ∈ (akeys rc.Streams ++ w0.2).filter (fun x => x ≠ origName),
          Normalize n ≠ Normalize k := by
        intro w hw hr n hn k hk
        have hk2 := List.mem_of_mem_filter hk
        rcases List.mem_append.mp hk2 with h1 | h1
        · exact hJ w hw (by simp [hr]) n hn k h1
        · refine hXD w hw w0 hw0 ?_ n hn k h1
          intro hh
          exact hWrest (by rw [← hw0n, ← hh]; exact hr)
      rcases hres : mergeLoop wilds rest
          (DeleteStream (mergeNames w0.1 w0.2 rc acc).1 w0.1) (mergeNames w0.1 w0.2 rc acc).2
        with ⟨rcF, accF⟩
      have := ih (DeleteStream (mergeNames w0.1 w0.2 rc acc).1 w0.1)
        (mergeNames w0.1 w0.2 rc acc).2
        (by rw [hacc1]; exact hN3)
        (by rw [hkeys2]; exact hkN2)
        (by rw [hkeys2, hacc1]; exact hperm3)
        (by rw [hkeys2]; exact hJ3)
      rw [hres] at this
      rcases this with ⟨h1, h2, h3⟩
      dsimp only at h1 h2 h3 ⊢
      refine ⟨?_, h2, h3⟩
      rw [h1, hacc1, List.flatMap_cons]
      have hexp : expandW wilds origName = w0.2 := by
        unfold expandW
        rw [hfind]
      rw [hexp, List.append_assoc]

theorem mergeNames_Tasks (pat : String) :
    ∀ (ns : List String) (rc : RC) (acc : List String),
      (mergeNames pat ns rc acc).1.Tasks = rc.Tasks := by
  intro ns
  induction ns with
  | nil => intro rc acc; rfl
  | cons n rest ih =>
    intro rc acc
    rw [mergeNames]
    by_cases hf : getStreamFound rc.Streams n = true
    · rw [if_pos hf]
      exact ih rc acc
    · rw [if_neg hf]
      exact ih _ _

theorem mergeWilds_Tasks (origName : String) :
    ∀ (ws : List (String × List String)) (rc : RC) (acc : List String) (m : Bool),
      (mergeWilds origName ws rc acc m).1.Tasks = rc.Tasks := by
  intro ws
  induction ws with
  | nil => intro rc acc m; rfl
  | cons w rest ih =>
    intro rc acc m
    rw [mergeWilds]
    by_cases hw : (w.1 == origName) = true
    · rw [if_pos hw]
      rcases hmn : mergeNames w.1 w.2 rc acc with ⟨rc1, acc1⟩
      dsimp only
      rw [ih _ _ _]
      have hmt := mergeNames_Tasks w.1 w.2 rc acc
      rw [hmn] at hmt
      exact hmt
    · rw [if_neg hw]
      exact ih rc acc m

theorem mergeLoop_Tasks (wilds : List (String × List String)) :
    ∀ (orig : List String) (rc : RC) (acc : List String),
      (mergeLoop wilds orig rc acc).1.Tasks = rc.Tasks := by
  intro orig
  induction orig with
  | nil => intro rc acc; rfl
  | cons o rest ih =>
    intro rc acc
    rw [mergeLoop]
    rw [ih _ _]
    exact mergeWilds_Tasks o wilds rc acc false

theorem flatMap_expandW_nil (l : List String) : l.flatMap (expandW []) = l := by
  induction l with
  | nil => rfl
  | cons a l ih => rw [List.flatMap_cons, ih]; rfl

theorem buildWildcards_disc (disc : String → DiscResult) :
    ∀ (pats : List String) (wilds : List (String × List String)),
      buildWildcards disc pats = .ok wilds → ∀ w ∈ wilds, disc w.1 = .ok w.2 := by
  intro pats
  induction pats with
  | nil =>
    intro wilds h w hw
    injection h with h2
    rw [← h2] at hw
    exact absurd hw (by simp)
  | cons p rest ih =>
    intro wilds h w hw
    rw [buildWildcards] at h
    split at h
    · exact ih _ h w hw
    · exact absurd h (by simp)
    · rename_i names hd
      rcases hbw : buildWildcards disc rest with e | ws2
      · rw [hbw] at h
        exact absurd h (by simp [Except.map])
      · rw [hbw] at h
        simp only [Except.map] at h
        injection h with h2
        rw [← h2] at hw
        rcases List.mem_cons.mp hw with h1 | h1
        · rw [h1]
          exact hd
        · exact ih _ hbw w h1

/-- The success characterisation of `ProcessWildcards` under fresh discovered
names: the new order is the original order with every wildcard entry replaced
by its discovered names in place, and map/order consistency is preserved. -/
theorem ProcessWildcards_char (rc : RC) (disc : String → DiscResult)
    (M1 : StreamMap) (pats : List String) (wilds : List (String × List String))
    (hp1 : pwPhase1 rc rc.streamsOrdered rc.Streams [] = .ok (M1, pats))
    (hbw : buildWildcards disc pats = .ok wilds)
    (hcons : Consistent rc)
    (hWD : ∀ w ∈ wilds, (w.2.map Normalize).Nodup)
    (hXD : ∀ w ∈ wilds, ∀ v ∈ wilds, w.1 ≠ v.1 →
      ∀ n ∈ w.2, ∀ m ∈ v.2, Normalize n ≠ Normalize m)
    (hfresh : ∀ w ∈ wilds, ∀ n ∈ w.2, ∀ k ∈ akeys rc.Streams,
      Normalize n ≠ Normalize k) :
    ∃ rc2, ProcessWildcards rc disc = .ok rc2 ∧
      rc2.streamsOrdered = rc.streamsOrdered.flatMap (expandW wilds) ∧
      Consistent rc2 ∧ rc2.Tasks = rc.Tasks := by
  have hkeq : akeys M1 = akeys rc.Streams := pwPhase1_akeys_eq rc _ _ _ _ _ hp1
  have hkN : (akeys rc.Streams).Nodup := hcons.2.symm.nodup hcons.1
  unfold ProcessWildcards
  rw [hp1]
  dsimp only
  by_cases hpe : pats.isEmpty = true
  · rw [if_pos hpe]
    have hpnil : pats = [] := List.isEmpty_iff.mp hpe
    subst hpnil
    rw [buildWildcards] at hbw
    injection hbw with hbw
    refine ⟨_, rfl, ?_, ?_, rfl⟩
    · dsimp only
      rw [← hbw, flatMap_expandW_nil]
    · refine ⟨hcons.1, ?_⟩
      dsimp only
      rw [hkeq]
      exact hcons.2
  · rw [if_neg hpe, hbw]
    dsimp only
    have hpatsN : pats.Nodup :=
      pwPhase1_pats_nodup rc _ _ _ _ _ hcons.1 List.nodup_nil (by simp) hp1
    have hpN : (wilds.map (fun w => w.1)).Nodup :=
      (buildWildcards_patterns_sublist disc pats wilds hbw).nodup hpatsN
    have hres := mergeLoop_char wilds hpN hWD hXD rc.streamsOrdered
      { rc with Streams := M1 } []
      (by simpa using hcons.1)
      (by dsimp only; rw [hkeq]; exact hkN)
      (by dsimp only; rw [hkeq]; simpa using hcons.2)
      (by
        intro w hw _ n hn k hk
        dsimp only at hk
        rw [hkeq] at hk
        exact hfresh w hw n hn k hk)
    rcases hres with ⟨h1, h2, h3⟩
    refine ⟨_, rfl, ?_, ⟨h3.nodup h2, h3⟩, mergeLoop_Tasks wilds _ _ _⟩
    dsimp only
    rw [h1]
    simp

theorem parseStreams_keys :
    ∀ (entries : List (String × Option RSC)) (m : StreamMap),
      (∀ p ∈ entries, p.1 ∉ akeys m) →
      (entries.map (fun p => p.1)).Nodup →
      akeys (entries.foldl (fun m p => mapInsert m p.1 p.2) m)
        = akeys m ++ entries.map (fun p => p.1) := by
  intro entries
  induction entries with
  | nil => intro m _ _; simp
  | cons p rest ih =>
    intro m hfresh hN
    rw [List.foldl_cons, List.map_cons]
    rw [List.map_cons, List.nodup_cons] at hN
    have hkeys : akeys (mapInsert m p.1 p.2) = akeys m ++ [p.1] :=
      akeys_mapInsert_absent m p.1 p.2 (hfresh p (by simp))
    have hfresh2 : ∀ q ∈ rest, q.1 ∉ akeys (mapInsert m p.1 p.2) := by
      intro q hq hin
      rw [hkeys] at hin
      rcases List.mem_append.mp hin with h1 | h1
      · exact hfresh q (by simp [hq]) h1
      · have hqp : q.1 = p.1 := by simpa using h1
        exact hN.1 (hqp ▸ List.mem_map_of_mem _ hq)
    rw [ih _ hfresh2 hN.2, hkeys, List.append_assoc]
    rfl

/-- C2: compilation preserves stream order through wildcard expansion.  For a
not-yet-compiled config whose order decomposes as `l1 ++ A :: l2 ++ W :: l3 ++
B :: l4` with `A`, `B` non-wildcard keys and `W` a pattern the Discoverer
answered with `ns`, a successful selection-free compile yields a task list
whose stream names place `A` before all of `ns` (contiguously, in discovery
order) before `B` — the wildcard is spliced in at its own position. -/
theorem C2_wildcard_splice_order (rc : RC) (ov : Option COV)
    (disc : String → DiscResult) (M1 : StreamMap) (pats : List String)
    (wilds : List (String × List String)) (A W B : String)
    (ns l1 l2 l3 l4 : List String) (rcF : RC)
    (hnc : rc.Compiled = false)
    (htasks : rc.Tasks = [])
    (hp1 : pwPhase1 rc rc.streamsOrdered rc.Streams [] = .ok (M1, pats))
    (hbw : buildWildcards disc pats = .ok wilds)
    (hcons : Consistent rc)
    (hWD : ∀ w ∈ wilds, (w.2.map Normalize).Nodup)
    (hXD : ∀ w ∈ wilds, ∀ v ∈ wilds, w.1 ≠ v.1 →
      ∀ n ∈ w.2, ∀ m ∈ v.2, Normalize n ≠ Normalize m)
    (hfresh : ∀ w ∈ wilds, ∀ n ∈ w.2, ∀ k ∈ akeys rc.Streams,
      Normalize n ≠ Normalize k)
    (hord : rc.streamsOrdered = l1 ++ A :: (l2 ++ W :: (l3 ++ B :: l4)))
    (hA : hasWildcardName A = false) (hB : hasWildcardName B = false)
    (hWin : (W, ns) ∈ wilds)
    (hok : Compile rc ov [] disc "" = .ok rcF) :
    disc W = .ok ns ∧
    ∃ m1 m2 m3 m4,
      rcF.Tasks.map (fun t => t.streamName)
        = m1 ++ A :: (m2 ++ (ns ++ (m3 ++ B :: m4))) := by
  obtain ⟨rc2, hpw, hflat, hcons2, htk⟩ :=
    ProcessWildcards_char rc disc M1 pats wilds hp1 hbw hcons hWD hXD hfresh
  have hpatsN : pats.Nodup :=
    pwPhase1_pats_nodup rc _ _ _ _ _ hcons.1 List.nodup_nil (by simp) hp1
  have hpN : (wilds.map (fun w => w.1)).Nodup :=
    (buildWildcards_patterns_sublist disc pats wilds hbw).nodup hpatsN
  have hwildpat : ∀ w ∈ wilds, hasWildcardName w.1 = true := by
    intro w hw
    have hmem : w.1 ∈ pats := buildWildcards_mem disc pats wilds hbw w hw
    rcases pwPhase1_pats_wild rc _ _ _ _ _ hp1 w.1 hmem with h1 | h1
    · exact absurd h1 (by simp)
    · exact h1
  have hexpA : expandW wilds A = [A] := by
    unfold expandW
    have hnone : wilds.find? (fun w => w.1 == A) = none := by
      rw [List.find?_eq_none]
      intro w hw hh
      have h1 := hwildpat w hw
      rw [beq_iff_eq.mp hh, hA] at h1
      exact absurd h1 (by decide)
    rw [hnone]
  have hexpB : expandW wilds B = [B] := by
    unfold expandW
    have hnone : wilds.find? (fun w => w.1 == B) = none := by
      rw [List.find?_eq_none]
      intro w hw hh
      have h1 := hwildpat w hw
      rw [beq_iff_eq.mp hh, hB] at h1
      exact absurd h1 (by decide)
    rw [hnone]
  have hexpW : expandW wilds W = ns := by
    unfold expandW
    rw [find?_pattern_of_mem wilds W ns hWin hpN]
  refine ⟨buildWildcards_disc disc pats wilds hbw (W, ns) hWin, ?_⟩
  -- run the compile pipeline on the hypothesis
  unfold Compile at hok
  rw [hnc] at hok
  simp only [Bool.false_eq_true, if_false] at hok
  simp only [hpw] at hok
  have hbm : buildMatched rc2 [] = some [] := rfl
  simp only [hbm] at hok
  simp only [List.filterMap_nil, List.length_nil] at hok
  rw [if_neg (by simp)] at hok
  rcases hloop : compileLoop rc2 ov 0 [] [] rc2.streamsOrdered [] rc2.Tasks
    with e | ok
  · rw [hloop] at hok
    exact absurd hok (by simp)
  · rcases ok with ⟨ms1, tasks1⟩
    simp only [hloop] at hok
    have htsc : ∀ (a : Nat) (b c : List String), testStreamCnt a b c "" = .ok () :=
      fun a b c => rfl
    simp only [htsc] at hok
    injection hok with hok
    have hmap := compileLoop_zero_sel_tasks rc2 ov [] [] rc2.streamsOrdered []
      rc2.Tasks ms1 tasks1 hloop
    rw [htk, htasks] at hmap
    refine ⟨l1.flatMap (expandW wilds), l2.flatMap (expandW wilds),
      l3.flatMap (expandW wilds), l4.flatMap (expandW wilds), ?_⟩
    rw [← hok]
    dsimp only
    rw [hmap, hflat, hord]
    simp only [List.flatMap_append, List.flatMap_cons, hexpA, hexpB, hexpW,
      List.map_nil, List.nil_append, List.singleton_append, List.cons_append,
      List.append_assoc]

/-- Witness for `C2_wildcard_splice_order`: compiling `x, public.*, y` with a
Discoverer answering `public.a, public.b` produces the task names
`x, public.a, public.b, y`. -/
theorem C2_wildcard_splice_order_witness :
    Fx.discW "public.*" = .ok ["public.a", "public.b"] ∧
    ∃ m1 m2 m3 m4,
      Fx.rcWF.Tasks.map (fun t => t.streamName)
        = m1 ++ "x" :: (m2 ++ (["public.a", "public.b"] ++ (m3 ++ "y" :: m4))) :=
  C2_wildcard_splice_order Fx.rcW none Fx.discW Fx.rcW.Streams ["public.*"]
    [("public.*", ["public.a", "public.b"])] "x" "public.*" "y"
    ["public.a", "public.b"] [] [] [] [] Fx.rcWF rfl rfl rfl rfl
    ⟨by decide, by decide⟩ (by decide) (by decide) (by decide) rfl (by decide)
    (by decide) (by decide) rfl

/-- C10 (amended): map/order consistency.  Parsing distinct YAML keys yields a
consistent config; `AddStream` with a key not yet in the map, `DeleteStream`,
and a successful `ProcessWildcards` with fresh discovered names all preserve
consistency (`streamsOrdered` enumerates the `Streams` keys exactly once), and
`DeleteStream` keeps the remaining entries in relative order.  `AddStream` on
an existing key breaks the invariant — see `C10_counterexample`. -/
theorem C10_consistency_preserved (rc : RC) (key dkey : String) (cfg : Option RSC)
    (entries : List (String × Option RSC)) (disc : String → DiscResult)
    (M1 : StreamMap) (pats : List String) (wilds : List (String × List String))
    (hc : Consistent rc)
    (hkey : key ∉ akeys rc.Streams)
    (hentN : (entries.map (fun p => p.1)).Nodup)
    (hp1 : pwPhase1 rc rc.streamsOrdered rc.Streams [] = .ok (M1, pats))
    (hbw : buildWildcards disc pats = .ok wilds)
    (hWD : ∀ w ∈ wilds, (w.2.map Normalize).Nodup)
    (hXD : ∀ w ∈ wilds, ∀ v ∈ wilds, w.1 ≠ v.1 →
      ∀ n ∈ w.2, ∀ m ∈ v.2, Normalize n ≠ Normalize m)
    (hfresh : ∀ w ∈ wilds, ∀ n ∈ w.2, ∀ k ∈ akeys rc.Streams,
      Normalize n ≠ Normalize k) :
    Consistent (parseStreams entries) ∧
    Consistent (AddStream rc key cfg) ∧
    (Consistent (DeleteStream rc dkey) ∧
      ((DeleteStream rc dkey).streamsOrdered).Sublist rc.streamsOrdered) ∧
    ∃ rc2, ProcessWildcards rc disc = .ok rc2 ∧ Consistent rc2 := by
  refine ⟨⟨hentN, ?_⟩, ⟨?_, ?_⟩, ⟨⟨?_, ?_⟩, ?_⟩, ?_⟩
  · show List.Perm (akeys (entries.foldl (fun m p => mapInsert m p.1 p.2) []))
      (entries.map (fun p => p.1))
    rw [parseStreams_keys entries [] (by simp [akeys]) hentN]
    simp [akeys]
  · show (rc.streamsOrdered ++ [key]).Nodup
    have hkeyord : key ∉ rc.streamsOrdered := fun hh => hkey (hc.2.mem_iff.mpr hh)
    rw [List.nodup_append]
    refine ⟨hc.1, List.nodup_singleton key, ?_⟩
    intro x hx
    simp only [List.mem_singleton]
    intro hh
    exact hkeyord (hh ▸ hx)
  · show List.Perm (akeys (mapInsert rc.Streams key (some (cfg.getD {}))))
      (rc.streamsOrdered ++ [key])
    rw [akeys_mapInsert_absent _ _ _ hkey]
    exact hc.2.append_right [key]
  · show (rc.streamsOrdered.filter (fun v => v ≠ dkey)).Nodup
    exact List.Nodup.filter _ hc.1
  · show List.Perm (akeys (mapErase rc.Streams dkey))
      (rc.streamsOrdered.filter (fun v => v ≠ dkey))
    rw [akeys_mapErase_eq]
    exact hc.2.filter _
  · show (rc.streamsOrdered.filter (fun v => v ≠ dkey)).Sublist rc.streamsOrdered
    exact List.filter_sublist _
  · obtain ⟨rc2, h1, _, h3, _⟩ :=
      ProcessWildcards_char rc disc M1 pats wilds hp1 hbw hc hWD hXD hfresh
    exact ⟨rc2, h1, h3⟩

/-- Witness for `C10_consistency_preserved`: parsing two distinct keys, adding
fresh `b` to the one-stream config, deleting `a`, and a wildcard-free
`ProcessWildcards` all keep the order list equal to the map keys. -/
theorem C10_consistency_preserved_witness :
    Consistent (parseStreams [("a", some {}), ("b", none)]) ∧
    Consistent (AddStream Fx.rc10 "b" (some {})) ∧
    (Consistent (DeleteStream Fx.rc10 "a") ∧
      ((DeleteStream Fx.rc10 "a").streamsOrdered).Sublist Fx.rc10.streamsOrdered) ∧
    ∃ rc2, ProcessWildcards Fx.rc10 Fx.noDisc = .ok rc2 ∧ Consistent rc2 :=
  C10_consistency_preserved Fx.rc10 "b" "a" (some {})
    [("a", some {}), ("b", none)] Fx.noDisc Fx.rc10.Streams [] []
    ⟨by decide, by decide⟩ (by decide) (by decide) rfl rfl
    (by decide) (by decide) (by decide)

end Sling
